import Mathlib

set_option maxHeartbeats 1000000

/-!
Formal model of the Knight's Tour solver core.

The definitions below are a shallow embedding of the Python sources:
  * src/algorithms/backtracking/backtracking.py  (BacktrackingSolver)
  * src/algorithms/backtracking/level0_random.py .. level3_enhanced.py
  * src/algorithms/cultural/level1_simple_ga.py, level2_enhanced_ga.py,
    level3_cultural_ga.py, cultural.py, utils.py, base_solver.py

Conventions of the embedding:
  * Board coordinates are integer pairs; the mutable n x n grid of the
    backtracking solver is a total map from positions to Int, -1 meaning
    unvisited (exactly the Python sentinel).
  * Wall-clock time is abstracted by the number of timeout checks already
    performed: the k-th check (0-based) reports an exceeded deadline exactly
    when T <= k, for an arbitrary threshold parameter T.  Real executions
    correspond to some T because elapsed time is monotone in check order.
  * Python floats are modelled by rationals; randomness never occurs in the
    functions embedded here (decode, fitness, belief-space update, the
    backtracking search), so all definitions are deterministic functions.
  * Python list.sort is a stable sort; List.insertionSort with the
    corresponding non-strict relation computes exactly that stable sort.
-/

namespace KnightsTour

/-- Board positions as integer pairs, as in the Python sources. -/
abbrev Pos := Int × Int

/-- Specification-side predicate: positions p and q differ by a legal knight
delta, i.e. the absolute coordinate differences are (1,2) or (2,1). -/
def knightStep (p q : Pos) : Prop :=
  ((q.1 - p.1).natAbs, (q.2 - p.2).natAbs) = (1, 2) ∨
  ((q.1 - p.1).natAbs, (q.2 - p.2).natAbs) = (2, 1)

instance (p q : Pos) : Decidable (knightStep p q) := by
  unfold knightStep; infer_instance

namespace Backtracking

/-- Move table MOVES of BacktrackingSolver (backtracking.py), in source order. -/
def MOVES : List Pos :=
  [(2, 1), (1, 2), (-1, 2), (-2, 1), (-2, -1), (-1, -2), (1, -2), (2, -1)]

/-- Mutable solver state of BacktrackingSolver: the board grid (a total map,
-1 = unvisited, k >= 0 = visited at step k), the solution path stack, the
recursive-call counter, the number of timeout checks performed so far (the
abstract clock), and the timed_out flag. -/
structure St where
  board : Pos → Int
  path : List Pos
  recursiveCalls : Nat
  checks : Nat
  timedOut : Bool

/-- State as reset at the top of solve(): fresh all -1 board, empty path,
zeroed counters. -/
def initSt : St :=
  { board := fun _ => -1, path := [], recursiveCalls := 0, checks := 0,
    timedOut := false }

/-- Pointwise board update, modelling the assignment board[x][y] = v. -/
def setCell (b : Pos → Int) (x y : Int) (v : Int) : Pos → Int :=
  fun p => if p = (x, y) then v else b p

/-- is_valid_move: the target square is inside the board and unvisited. -/
def isValidMove (n : Nat) (b : Pos → Int) (x y : Int) : Bool :=
  decide (0 ≤ x ∧ x < (n : Int) ∧ 0 ≤ y ∧ y < (n : Int) ∧ b (x, y) = -1)

/-- get_degree: number of valid unvisited destinations reachable from (x,y),
counted over the MOVES table. -/
def getDegree (n : Nat) (b : Pos → Int) (x y : Int) : Nat :=
  (MOVES.filter (fun d => isValidMove n b (x + d.1) (y + d.2))).length

/-- Valid destinations from (x,y) in MOVES-table order: the list that
get_ordered_moves builds before sorting. -/
def validDests (n : Nat) (b : Pos → Int) (x y : Int) : List Pos :=
  (MOVES.map (fun d => (x + d.1, y + d.2))).filter
    (fun q => isValidMove n b q.1 q.2)

/-- Ordering relation used by the degree sort: compare the cached degree
component of (destination, degree) pairs. -/
def degLE : Pos × Nat → Pos × Nat → Prop := fun a b => a.2 ≤ b.2

instance : DecidableRel degLE := fun a b => inferInstanceAs (Decidable (a.2 ≤ b.2))

instance : IsTotal (Pos × Nat) degLE := ⟨fun a b => Nat.le_total a.2 b.2⟩

instance : IsTrans (Pos × Nat) degLE := ⟨fun _ _ _ => Nat.le_trans⟩

/-- get_ordered_moves: decorate each valid destination with its degree, sort
stably ascending by degree (valid_moves.sort(key=degree); Python sorting is
stable, and insertionSort with degLE computes that stable sort), then project
the destinations back out. -/
def getOrderedMoves (n : Nat) (b : Pos → Int) (x y : Int) : List Pos :=
  (((validDests n b x y).map
      (fun q => (q, getDegree n b q.1 q.2))).insertionSort degLE).map Prod.fst

/-- Loop of solve_recursive over the ordered candidate list: run f on each
candidate in turn, threading the state, stopping at the first success. -/
def tryMoves (f : Pos → St → Bool × St) : List Pos → St → Bool × St
  | [], st => (false, st)
  | q :: rest, st =>
    let r := f q st
    if r.1 then r else tryMoves f rest r.2

/-- solve_recursive of BacktrackingSolver, structurally recursive on a fuel
argument.  Each call first performs the timeout check (advancing the abstract
clock; the check fires exactly when T ≤ previous number of checks), then
increments recursive_calls, marks the current square and pushes it on the
path, succeeds when move_count = n*n - 1, otherwise recurses through the
ordered moves and on failure unmarks the square and pops the path.  The
progress callback in the source only observes state and is omitted.  Fuel
n*n is always sufficient (move_count increases by 1 per level and is capped
by the base case at n*n - 1), so the fuel-exhaustion branch is unreachable
in solve below. -/
def solveRec (n T : Nat) : Nat → Int → Int → Nat → St → Bool × St
  | 0, _, _, _, st => (false, st)
  | fuel + 1, x, y, moveCount, st =>
    let k := st.checks
    let st1 : St := { st with checks := k + 1 }
    if T ≤ k then
      (false, { st1 with timedOut := true })
    else
      let st2 : St := { st1 with
        recursiveCalls := st1.recursiveCalls + 1,
        board := setCell st1.board x y (Int.ofNat moveCount),
        path := st1.path ++ [(x, y)] }
      if moveCount = n * n - 1 then
        (true, st2)
      else
        let r := tryMoves (fun q s => solveRec n T fuel q.1 q.2 (moveCount + 1) s)
          (getOrderedMoves n st2.board x y) st2
        if r.1 then r
        else
          (false, { r.2 with
            board := setCell r.2.board x y (-1),
            path := r.2.path.dropLast })

/-- Statistics dictionary returned by solve(); optional fields model dict
keys that are present only on some return paths (the invalid-start stats
dict has no solution_length/timed_out/algorithm keys).  The wall-clock
execution_time entry is outside the embedding. -/
structure Stats where
  recursiveCalls : Nat
  solutionLength : Option Nat
  timedOut : Option Bool
  algorithm : Option String
  error : Option String

/-- Result of solve(): success flag, copied path, stats, and the final
solver state (the Python object attributes after the call). -/
structure Result where
  success : Bool
  path : List Pos
  stats : Stats
  final : St

/-- Error message built by solve() on timeout, naming the configured
duration. -/
def timeoutMsg (timeout : ℚ) : String :=
  "Timeout after " ++ toString timeout ++ " seconds"

/-- solve of BacktrackingSolver: reset state, validate the start position
(immediate failure with a descriptive stats entry when outside the board),
then run solve_recursive from the start square and package the stats. -/
def solve (n : Nat) (start : Pos) (timeout : ℚ) (T : Nat) : Result :=
  if 0 ≤ start.1 ∧ start.1 < (n : Int) ∧ 0 ≤ start.2 ∧ start.2 < (n : Int) then
    let r := solveRec n T (n * n) start.1 start.2 0 initSt
    let st := r.2
    { success := r.1, path := st.path,
      stats := { recursiveCalls := st.recursiveCalls,
                 solutionLength := some st.path.length,
                 timedOut := some st.timedOut,
                 algorithm := some "Backtracking with Warnsdorff Heuristic",
                 error := if st.timedOut then some (timeoutMsg timeout) else none },
      final := st }
  else
    { success := false, path := [],
      stats := { recursiveCalls := 0, solutionLength := none, timedOut := none,
                 algorithm := none, error := some "Invalid start position" },
      final := initSt }

end Backtracking

end KnightsTour

namespace KnightsTour

namespace Backtracking

/-- Filtering on one degree value commutes with orderedInsert: the inserted
pair lands before exactly the strictly larger degrees, so the degree-d
sublist either gains the new pair at its head (when its degree is d) or is
unchanged. -/
theorem filter_orderedInsert (d : Nat) (a : Pos × Nat) (l : List (Pos × Nat)) :
    (l.orderedInsert degLE a).filter (fun x => x.2 == d) =
      if a.2 = d then a :: l.filter (fun x => x.2 == d)
      else l.filter (fun x => x.2 == d) := by
  induction l with
  | nil =>
    by_cases h : a.2 = d <;> simp [List.orderedInsert, h]
  | cons b l ih =>
    rw [List.orderedInsert]
    by_cases hab : degLE a b
    · rw [if_pos hab]
      by_cases h : a.2 = d <;> by_cases hb : b.2 = d <;>
        simp [List.filter_cons, h, hb]
    · rw [if_neg hab]
      have hlt : b.2 < a.2 := Nat.lt_of_not_le hab
      by_cases h : a.2 = d
      · have hb : ¬ b.2 = d := by omega
        simp [List.filter_cons, hb, ih, h]
      · by_cases hb : b.2 = d <;> simp [List.filter_cons, hb, ih, h]

/-- Stability of the degree sort: for every degree value d, sorting preserves
the sublist of pairs of degree d (same elements, same order). -/
theorem filter_insertionSort (d : Nat) (l : List (Pos × Nat)) :
    (l.insertionSort degLE).filter (fun x => x.2 == d) =
      l.filter (fun x => x.2 == d) := by
  induction l with
  | nil => rfl
  | cons a l ih =>
    rw [List.insertionSort, filter_orderedInsert]
    by_cases h : a.2 = d <;> simp [List.filter_cons, h, ih]

/-- Projection out of decorated pairs commutes with degree filtering, given
that each pair carries the degree of its own destination. -/
theorem map_fst_filter_deg (n : Nat) (b : Pos → Int) (d : Nat) :
    ∀ m : List (Pos × Nat), (∀ a ∈ m, a.2 = getDegree n b a.1.1 a.1.2) →
      (m.map Prod.fst).filter (fun p => getDegree n b p.1 p.2 == d) =
        (m.filter (fun x => x.2 == d)).map Prod.fst := by
  intro m
  induction m with
  | nil => intro _; rfl
  | cons a m ih =>
    intro hm
    have ha := hm a (List.mem_cons_self a m)
    have hrest : ∀ x ∈ m, x.2 = getDegree n b x.1.1 x.1.2 :=
      fun x hx => hm x (List.mem_cons_of_mem a hx)
    by_cases h : a.2 = d
    · simp [List.filter_cons, ← ha, h, ih hrest]
    · simp [List.filter_cons, ← ha, h, ih hrest]

end Backtracking

end KnightsTour

namespace KnightsTour

namespace Backtracking

/-- Membership invariant of the decorated candidate list: every pair carries
the degree of its own destination, before and after sorting. -/
theorem mem_sorted_deg (n : Nat) (b : Pos → Int) (x y : Int) :
    ∀ a ∈ (((validDests n b x y).map
        (fun q => (q, getDegree n b q.1 q.2))).insertionSort degLE),
      a.2 = getDegree n b a.1.1 a.1.2 := by
  intro a ha
  have hmem := (List.perm_insertionSort degLE
    ((validDests n b x y).map (fun q => (q, getDegree n b q.1 q.2)))).mem_iff.mp ha
  obtain ⟨q, _, rfl⟩ := List.mem_map.mp hmem
  rfl

end Backtracking

/-- C5: at any board state, get_ordered_moves returns exactly the legal
unvisited destinations (the MOVES-table-order candidate list), sorted in
ascending order of degree, and stably so: for each degree value d, the
destinations of degree d appear in the original MOVES-table order. -/
theorem C5_get_ordered_moves_stable_warnsdorff (n : Nat) (b : Pos → Int)
    (x y : Int) :
    (Backtracking.getOrderedMoves n b x y).Perm (Backtracking.validDests n b x y) ∧
    (Backtracking.getOrderedMoves n b x y).Pairwise
      (fun p q => Backtracking.getDegree n b p.1 p.2 ≤ Backtracking.getDegree n b q.1 q.2) ∧
    ∀ d : Nat,
      (Backtracking.getOrderedMoves n b x y).filter
          (fun p => Backtracking.getDegree n b p.1 p.2 == d) =
        (Backtracking.validDests n b x y).filter
          (fun p => Backtracking.getDegree n b p.1 p.2 == d) := by
  classical
  have h2 : ((Backtracking.validDests n b x y).map
      (fun q => (q, Backtracking.getDegree n b q.1 q.2))).map Prod.fst =
      Backtracking.validDests n b x y := by
    rw [List.map_map]; exact List.map_id _
  have hinv : ∀ a ∈ (Backtracking.validDests n b x y).map
      (fun q => (q, Backtracking.getDegree n b q.1 q.2)),
      a.2 = Backtracking.getDegree n b a.1.1 a.1.2 := by
    intro a ha
    obtain ⟨q, _, rfl⟩ := List.mem_map.mp ha
    rfl
  refine ⟨?_, ?_, ?_⟩
  · have h1 := (List.perm_insertionSort Backtracking.degLE
      ((Backtracking.validDests n b x y).map
        (fun q => (q, Backtracking.getDegree n b q.1 q.2)))).map Prod.fst
    rw [h2] at h1
    rw [Backtracking.getOrderedMoves]
    exact h1
  · have hs := List.sorted_insertionSort Backtracking.degLE
      ((Backtracking.validDests n b x y).map
        (fun q => (q, Backtracking.getDegree n b q.1 q.2)))
    rw [Backtracking.getOrderedMoves, List.pairwise_map]
    refine List.Pairwise.imp_of_mem ?_ hs
    intro a c ha hc hac
    have h2a := Backtracking.mem_sorted_deg n b x y a ha
    have h2c := Backtracking.mem_sorted_deg n b x y c hc
    have : a.2 ≤ c.2 := hac
    omega
  · intro d
    rw [Backtracking.getOrderedMoves,
      Backtracking.map_fst_filter_deg n b d _ (Backtracking.mem_sorted_deg n b x y),
      Backtracking.filter_insertionSort,
      ← Backtracking.map_fst_filter_deg n b d _ hinv, h2]

/-- C3: with a start position whose x or y lies outside the board, solve
fails immediately: success is false, the path is empty, the stats carry the
descriptive error entry, and no search work happened (zero recursive calls,
board still entirely unvisited). -/
theorem C3_invalid_start_immediate_failure (n : Nat) (start : Pos)
    (timeout : ℚ) (T : Nat)
    (h : ¬ (0 ≤ start.1 ∧ start.1 < (n : Int)) ∨ ¬ (0 ≤ start.2 ∧ start.2 < (n : Int))) :
    (Backtracking.solve n start timeout T).success = false ∧
    (Backtracking.solve n start timeout T).path = [] ∧
    (Backtracking.solve n start timeout T).stats.error = some "Invalid start position" ∧
    (Backtracking.solve n start timeout T).stats.recursiveCalls = 0 ∧
    (Backtracking.solve n start timeout T).final.recursiveCalls = 0 ∧
    ∀ p, (Backtracking.solve n start timeout T).final.board p = -1 := by
  have h' : ¬ (0 ≤ start.1 ∧ start.1 < (n : Int) ∧ 0 ≤ start.2 ∧ start.2 < (n : Int)) := by
    tauto
  simp [Backtracking.solve, h', Backtracking.initSt]

/-- Witness for C3 at the spec scenario: 8x8 board, start (99, 99). -/
theorem C3_invalid_start_immediate_failure_witness :
    ((¬ (0 ≤ (99 : Int) ∧ (99 : Int) < ((8 : Nat) : Int)) ∨
      ¬ (0 ≤ (99 : Int) ∧ (99 : Int) < ((8 : Nat) : Int)))) ∧
    ((Backtracking.solve 8 (99, 99) 60 1000).success = false ∧
     (Backtracking.solve 8 (99, 99) 60 1000).path = [] ∧
     (Backtracking.solve 8 (99, 99) 60 1000).stats.error = some "Invalid start position" ∧
     (Backtracking.solve 8 (99, 99) 60 1000).stats.recursiveCalls = 0 ∧
     (Backtracking.solve 8 (99, 99) 60 1000).final.recursiveCalls = 0 ∧
     ∀ p, (Backtracking.solve 8 (99, 99) 60 1000).final.board p = -1) :=
  ⟨by decide, C3_invalid_start_immediate_failure 8 (99, 99) 60 1000 (by decide)⟩

end KnightsTour

namespace KnightsTour

namespace Backtracking

/-- Positions delivered by get_ordered_moves are exactly the valid
destinations (the sort only reorders them). -/
theorem mem_getOrderedMoves {n : Nat} {b : Pos → Int} {x y : Int} {q : Pos} :
    q ∈ getOrderedMoves n b x y ↔ q ∈ validDests n b x y := by
  constructor
  · intro hq
    rw [getOrderedMoves] at hq
    obtain ⟨a, ha, rfl⟩ := List.mem_map.mp hq
    have := (List.perm_insertionSort degLE _).mem_iff.mp ha
    obtain ⟨p, hp, h⟩ := List.mem_map.mp this
    cases h
    exact hp
  · intro hq
    rw [getOrderedMoves]
    refine List.mem_map.mpr ⟨(q, getDegree n b q.1 q.2), ?_, rfl⟩
    exact (List.perm_insertionSort degLE _).mem_iff.mpr
      (List.mem_map.mpr ⟨q, hq, rfl⟩)

/-- Valid destinations are unvisited squares of the current board, reached by
one MOVES-table delta from (x, y). -/
theorem mem_validDests {n : Nat} {b : Pos → Int} {x y : Int} {q : Pos}
    (hq : q ∈ validDests n b x y) :
    b q = -1 ∧ ∃ d ∈ MOVES, q = (x + d.1, y + d.2) := by
  rw [validDests] at hq
  have hmem := List.mem_filter.mp hq
  obtain ⟨d, hd, rfl⟩ := List.mem_map.mp hmem.1
  have hv := of_decide_eq_true hmem.2
  exact ⟨hv.2.2.2.2, d, hd, rfl⟩

/-- Candidate-loop frame lemma: when every candidate call that fails
restores the board and the path, a failing loop restores them as well. -/
theorem tryMoves_frame (f : Pos → St → Bool × St) :
    ∀ (l : List Pos) (st : St),
      (∀ q ∈ l, ∀ s : St, s.board = st.board → (f q s).1 = false →
        ((f q s).2.board = s.board ∧ (f q s).2.path = s.path)) →
      (tryMoves f l st).1 = false →
      ((tryMoves f l st).2.board = st.board ∧ (tryMoves f l st).2.path = st.path) := by
  intro l
  induction l with
  | nil => intro st _ _; exact ⟨rfl, rfl⟩
  | cons q rest ih =>
    intro st hf hres
    rw [tryMoves] at hres ⊢
    by_cases h1 : (f q st).1 = true
    · rw [if_pos h1] at hres
      rw [hres] at h1
      exact absurd h1 (by simp)
    · have h1' : (f q st).1 = false := by
        cases hfq : (f q st).1
        · rfl
        · exact absurd hfq h1
      have hrest := hf q (List.mem_cons_self q rest) st rfl h1'
      rw [if_neg h1] at hres ⊢
      have hf' : ∀ p ∈ rest, ∀ s : St, s.board = (f q st).2.board →
          (f p s).1 = false →
          ((f p s).2.board = s.board ∧ (f p s).2.path = s.path) := by
        intro p hp s hs
        exact hf p (List.mem_cons_of_mem q hp) s (hs.trans hrest.1)
      have ih' := ih (f q st).2 hf' hres
      exact ⟨ih'.1.trans hrest.1, ih'.2.trans hrest.2⟩

/-- Candidate-loop success lemma: a successful loop comes from one candidate
call made on a state whose board and path equal the loop entry state. -/
theorem tryMoves_true (f : Pos → St → Bool × St) :
    ∀ (l : List Pos) (st : St),
      (∀ q ∈ l, ∀ s : St, s.board = st.board → (f q s).1 = false →
        ((f q s).2.board = s.board ∧ (f q s).2.path = s.path)) →
      (tryMoves f l st).1 = true →
      ∃ q ∈ l, ∃ s : St, s.board = st.board ∧ s.path = st.path ∧
        f q s = (true, (tryMoves f l st).2) := by
  intro l
  induction l with
  | nil => intro st _ hres; exact absurd hres (by simp [tryMoves])
  | cons q rest ih =>
    intro st hf hres
    rw [tryMoves] at hres ⊢
    by_cases h1 : (f q st).1 = true
    · rw [if_pos h1] at hres ⊢
      exact ⟨q, List.mem_cons_self q rest, st, rfl, rfl, Prod.ext h1 rfl⟩
    · have h1' : (f q st).1 = false := by
        cases hfq : (f q st).1
        · rfl
        · exact absurd hfq h1
      have hrest := hf q (List.mem_cons_self q rest) st rfl h1'
      rw [if_neg h1] at hres ⊢
      have hf' : ∀ p ∈ rest, ∀ s : St, s.board = (f q st).2.board →
          (f p s).1 = false →
          ((f p s).2.board = s.board ∧ (f p s).2.path = s.path) := by
        intro p hp s hs
        exact hf p (List.mem_cons_of_mem q hp) s (hs.trans hrest.1)
      obtain ⟨p, hp, s, hs1, hs2, hcall⟩ := ih (f q st).2 hf' hres
      exact ⟨p, List.mem_cons_of_mem q hp, s, hs1.trans hrest.1,
        hs2.trans hrest.2, hcall⟩

/-- Frame property of solve_recursive: a call on a currently-unvisited
square that returns False leaves the board and the solution path exactly as
they were (the backtrack branch undoes the mark and the push; the timeout
branch touches neither). -/
theorem solveRec_frame (n T : Nat) :
    ∀ (fuel : Nat) (x y : Int) (mc : Nat) (st : St),
      st.board (x, y) = -1 →
      (solveRec n T fuel x y mc st).1 = false →
      ((solveRec n T fuel x y mc st).2.board = st.board ∧
       (solveRec n T fuel x y mc st).2.path = st.path) := by
  intro fuel
  induction fuel with
  | zero => intro x y mc st _ _; exact ⟨rfl, rfl⟩
  | succ fuel ih =>
    intro x y mc st hb hres
    rw [solveRec] at hres ⊢
    by_cases hk : T ≤ st.checks
    · rw [if_pos hk] at hres ⊢
      exact ⟨rfl, rfl⟩
    · rw [if_neg hk] at hres ⊢
      by_cases hmc : mc = n * n - 1
      · rw [if_pos hmc] at hres
        exact absurd hres (by simp)
      · rw [if_neg hmc] at hres ⊢
        set st2 : St := { st with
          checks := st.checks + 1,
          recursiveCalls := st.recursiveCalls + 1,
          board := setCell st.board x y (Int.ofNat mc),
          path := st.path ++ [(x, y)] } with hst2
        have hframe : ∀ q ∈ getOrderedMoves n st2.board x y, ∀ s : St,
            s.board = st2.board →
            (solveRec n T fuel q.1 q.2 (mc + 1) s).1 = false →
            ((solveRec n T fuel q.1 q.2 (mc + 1) s).2.board = s.board ∧
             (solveRec n T fuel q.1 q.2 (mc + 1) s).2.path = s.path) := by
          intro q hq s hs hfalse
          have hunv : st2.board q = -1 :=
            (mem_validDests (mem_getOrderedMoves.mp hq)).1
          have : s.board (q.1, q.2) = -1 := by rw [hs]; exact hunv
          exact ih q.1 q.2 (mc + 1) s this hfalse
        by_cases hr : (tryMoves (fun q s => solveRec n T fuel q.1 q.2 (mc + 1) s)
            (getOrderedMoves n st2.board x y) st2).1 = true
        · rw [if_pos hr] at hres
          rw [hres] at hr
          exact absurd hr (by simp)
        · have hr' : (tryMoves (fun q s => solveRec n T fuel q.1 q.2 (mc + 1) s)
              (getOrderedMoves n st2.board x y) st2).1 = false := by
            cases hc : (tryMoves (fun q s => solveRec n T fuel q.1 q.2 (mc + 1) s)
                (getOrderedMoves n st2.board x y) st2).1
            · rfl
            · exact absurd hc hr
          have hrest := tryMoves_frame _ _ _ hframe hr'
          rw [if_neg hr]
          constructor
          · show setCell _ x y (-1) = st.board
            rw [hrest.1]
            funext p
            by_cases hp : p = (x, y)
            · subst hp
              simp [setCell, hb]
            · simp [hst2, setCell, hp]
          · show List.dropLast _ = st.path
            rw [hrest.2]
            show (st.path ++ [(x, y)]).dropLast = st.path
            simp

end Backtracking

end KnightsTour

namespace KnightsTour

namespace Backtracking

/-- Invariant tying the timed_out flag to the abstract clock: once the flag
is set, the clock has passed the deadline. -/
def TOInv (T : Nat) (st : St) : Prop := st.timedOut = true → T < st.checks

/-- Once the clock has passed the deadline, every call fails at its first
timeout check (or at fuel exhaustion), never decreasing the clock. -/
theorem solveRec_absorb (n T : Nat) (fuel : Nat) (x y : Int) (mc : Nat) (st : St)
    (h : T ≤ st.checks) :
    (solveRec n T fuel x y mc st).1 = false ∧
    st.checks ≤ (solveRec n T fuel x y mc st).2.checks := by
  cases fuel with
  | zero => exact ⟨rfl, le_refl _⟩
  | succ fuel =>
    rw [solveRec, if_pos h]
    exact ⟨rfl, Nat.le_succ _⟩

/-- Candidate-loop version of the absorb lemma. -/
theorem tryMoves_absorb (T : Nat) (f : Pos → St → Bool × St)
    (hf : ∀ q s, T ≤ s.checks → ((f q s).1 = false ∧ s.checks ≤ (f q s).2.checks)) :
    ∀ (l : List Pos) (st : St), T ≤ st.checks →
      (tryMoves f l st).1 = false ∧ st.checks ≤ (tryMoves f l st).2.checks := by
  intro l
  induction l with
  | nil => intro st _; exact ⟨rfl, le_refl _⟩
  | cons q rest ih =>
    intro st h
    have hq := hf q st h
    rw [tryMoves]
    rw [if_neg (by rw [hq.1]; simp)]
    have := ih (f q st).2 (h.trans hq.2)
    exact ⟨this.1, hq.2.trans this.2⟩

/-- The abstract clock never decreases across a recursive call. -/
theorem solveRec_checks_mono (n T : Nat) :
    ∀ (fuel : Nat) (x y : Int) (mc : Nat) (st : St),
      st.checks ≤ (solveRec n T fuel x y mc st).2.checks := by
  intro fuel
  induction fuel with
  | zero => intro x y mc st; exact le_refl _
  | succ fuel ih =>
    intro x y mc st
    rw [solveRec]
    by_cases hk : T ≤ st.checks
    · rw [if_pos hk]; exact Nat.le_succ _
    · rw [if_neg hk]
      by_cases hmc : mc = n * n - 1
      · rw [if_pos hmc]; exact Nat.le_succ _
      · rw [if_neg hmc]
        set st2 : St := { st with
          checks := st.checks + 1,
          recursiveCalls := st.recursiveCalls + 1,
          board := setCell st.board x y (Int.ofNat mc),
          path := st.path ++ [(x, y)] } with hst2
        have hmono : ∀ (l : List Pos) (s : St),
            s.checks ≤
              (tryMoves (fun q s => solveRec n T fuel q.1 q.2 (mc + 1) s) l s).2.checks := by
          intro l
          induction l with
          | nil => intro s; exact le_refl _
          | cons q rest ihl =>
            intro s
            rw [tryMoves]
            by_cases h1 : (solveRec n T fuel q.1 q.2 (mc + 1) s).1 = true
            · rw [if_pos h1]; exact ih q.1 q.2 (mc + 1) s
            · rw [if_neg h1]
              exact (ih q.1 q.2 (mc + 1) s).trans (ihl _)
        by_cases hr : (tryMoves (fun q s => solveRec n T fuel q.1 q.2 (mc + 1) s)
            (getOrderedMoves n st2.board x y) st2).1 = true
        · rw [if_pos hr]
          exact (Nat.le_succ _).trans (hmono _ st2)
        · rw [if_neg hr]
          exact (Nat.le_succ _).trans (hmono _ st2)

/-- The timed_out/clock invariant is preserved by every recursive call. -/
theorem solveRec_toinv (n T : Nat) :
    ∀ (fuel : Nat) (x y : Int) (mc : Nat) (st : St),
      TOInv T st → TOInv T (solveRec n T fuel x y mc st).2 := by
  intro fuel
  induction fuel with
  | zero => intro _ _ _ _ h; exact h
  | succ fuel ih =>
    intro x y mc st hinv
    rw [solveRec]
    by_cases hk : T ≤ st.checks
    · rw [if_pos hk]
      intro _
      exact Nat.lt_succ_of_le hk
    · rw [if_neg hk]
      by_cases hmc : mc = n * n - 1
      · rw [if_pos hmc]
        intro hto
        exact (hinv hto).trans (Nat.lt_succ_self _)
      · rw [if_neg hmc]
        set st2 : St := { st with
          checks := st.checks + 1,
          recursiveCalls := st.recursiveCalls + 1,
          board := setCell st.board x y (Int.ofNat mc),
          path := st.path ++ [(x, y)] } with hst2
        have hinv2 : TOInv T st2 := by
          intro hto
          exact (hinv hto).trans (Nat.lt_succ_self _)
        have hpres : ∀ (l : List Pos) (s : St), TOInv T s →
            TOInv T (tryMoves (fun q s => solveRec n T fuel q.1 q.2 (mc + 1) s) l s).2 := by
          intro l
          induction l with
          | nil => intro s h; exact h
          | cons q rest ihl =>
            intro s h
            rw [tryMoves]
            by_cases h1 : (solveRec n T fuel q.1 q.2 (mc + 1) s).1 = true
            · rw [if_pos h1]; exact ih q.1 q.2 (mc + 1) s h
            · rw [if_neg h1]; exact ihl _ (ih q.1 q.2 (mc + 1) s h)
        by_cases hr : (tryMoves (fun q s => solveRec n T fuel q.1 q.2 (mc + 1) s)
            (getOrderedMoves n st2.board x y) st2).1 = true
        · rw [if_pos hr]
          exact hpres _ st2 hinv2
        · rw [if_neg hr]
          exact hpres _ st2 hinv2

end Backtracking

end KnightsTour

namespace KnightsTour

namespace Backtracking

/-- A successful call never flips the timed_out flag: once the deadline
fires, every subsequent call fails immediately, so success can only happen
on a branch where no check ever fired. -/
theorem solveRec_success_to (n T : Nat) :
    ∀ (fuel : Nat) (x y : Int) (mc : Nat) (st : St),
      TOInv T st →
      (solveRec n T fuel x y mc st).1 = true →
      (solveRec n T fuel x y mc st).2.timedOut = st.timedOut := by
  intro fuel
  induction fuel with
  | zero =>
    intro x y mc st _ h
    exact absurd h (by simp [solveRec])
  | succ fuel ih =>
    intro x y mc st hinv htrue
    rw [solveRec] at htrue ⊢
    by_cases hk : T ≤ st.checks
    · rw [if_pos hk] at htrue
      exact absurd htrue (by simp)
    · rw [if_neg hk] at htrue ⊢
      by_cases hmc : mc = n * n - 1
      · rw [if_pos hmc]
      · rw [if_neg hmc] at htrue ⊢
        set st2 : St := { st with
          checks := st.checks + 1,
          recursiveCalls := st.recursiveCalls + 1,
          board := setCell st.board x y (Int.ofNat mc),
          path := st.path ++ [(x, y)] } with hst2
        have habs : ∀ (q : Pos) (s : St), T ≤ s.checks →
            (((fun q s => solveRec n T fuel q.1 q.2 (mc + 1) s) q s).1 = false ∧
             s.checks ≤ ((fun q s => solveRec n T fuel q.1 q.2 (mc + 1) s) q s).2.checks) :=
          fun q s hs => solveRec_absorb n T fuel q.1 q.2 (mc + 1) s hs
        have hfold : ∀ (l : List Pos) (s : St), TOInv T s →
            (tryMoves (fun q s => solveRec n T fuel q.1 q.2 (mc + 1) s) l s).1 = true →
            (tryMoves (fun q s => solveRec n T fuel q.1 q.2 (mc + 1) s) l s).2.timedOut =
              s.timedOut := by
          intro l
          induction l with
          | nil =>
            intro s _ h
            exact absurd h (by simp [tryMoves])
          | cons q rest ihl =>
            intro s hs htr
            cases hto : s.timedOut with
            | true =>
              have hTk : T ≤ s.checks := Nat.le_of_lt (hs hto)
              have := (tryMoves_absorb T _ habs (q :: rest) s hTk).1
              rw [htr] at this
              exact absurd this (by simp)
            | false =>
              rw [tryMoves] at htr ⊢
              by_cases h1 : (solveRec n T fuel q.1 q.2 (mc + 1) s).1 = true
              · rw [if_pos h1] at htr ⊢
                exact (ih q.1 q.2 (mc + 1) s hs h1).trans hto
              · rw [if_neg h1] at htr ⊢
                have hinvr : TOInv T (solveRec n T fuel q.1 q.2 (mc + 1) s).2 :=
                  solveRec_toinv n T fuel q.1 q.2 (mc + 1) s hs
                cases hrt : (solveRec n T fuel q.1 q.2 (mc + 1) s).2.timedOut with
                | true =>
                  have hTk : T ≤ (solveRec n T fuel q.1 q.2 (mc + 1) s).2.checks :=
                    Nat.le_of_lt (hinvr hrt)
                  have := (tryMoves_absorb T _ habs rest _ hTk).1
                  rw [htr] at this
                  exact absurd this (by simp)
                | false =>
                  rw [ihl _ (by intro hx; rw [hrt] at hx; exact absurd hx (by simp)) htr]
                  exact hrt
        by_cases hr : (tryMoves (fun q s => solveRec n T fuel q.1 q.2 (mc + 1) s)
            (getOrderedMoves n st2.board x y) st2).1 = true
        · rw [if_pos hr]
          have hinv2 : TOInv T st2 := by
            intro hto
            exact (hinv hto).trans (Nat.lt_succ_self _)
          exact hfold _ st2 hinv2 hr
        · rw [if_neg hr] at htrue
          exact absurd htrue (by simp)

end Backtracking

end KnightsTour

namespace KnightsTour

/-- C10: a solve_recursive call that returns False restores the board and
the solution path to their values at entry (the hypothesis that the entered
square is unvisited holds for every call a run actually makes: the root
starts on a fresh board and recursion only enters squares passing
is_valid_move); consequently, after a passed start-check, a failed solve
returns the empty path. -/
theorem C10_false_restores_board_and_path (n T : Nat) :
    (∀ (fuel : Nat) (x y : Int) (mc : Nat) (st : Backtracking.St),
      st.board (x, y) = -1 →
      (Backtracking.solveRec n T fuel x y mc st).1 = false →
      ((Backtracking.solveRec n T fuel x y mc st).2.board = st.board ∧
       (Backtracking.solveRec n T fuel x y mc st).2.path = st.path)) ∧
    (∀ (start : Pos) (timeout : ℚ),
      (0 ≤ start.1 ∧ start.1 < (n : Int) ∧ 0 ≤ start.2 ∧ start.2 < (n : Int)) →
      (Backtracking.solve n start timeout T).success = false →
      (Backtracking.solve n start timeout T).path = []) := by
  constructor
  · exact fun fuel x y mc st hb hf => Backtracking.solveRec_frame n T fuel x y mc st hb hf
  · intro start timeout hv hfail
    have hfail' : (Backtracking.solveRec n T (n * n) start.1 start.2 0
        Backtracking.initSt).1 = false := by
      simpa [Backtracking.solve, hv] using hfail
    have hframe := Backtracking.solveRec_frame n T (n * n) start.1 start.2 0
      Backtracking.initSt rfl hfail'
    have hpath : (Backtracking.solveRec n T (n * n) start.1 start.2 0
        Backtracking.initSt).2.path = [] := hframe.2
    simp [Backtracking.solve, hv, hpath]

/-- Witness for C10: a 2x2 board has no knight moves, so the search fails
and restores the fresh board and empty path; solve then returns path []. -/
theorem C10_false_restores_board_and_path_witness :
    (Backtracking.initSt.board ((0 : Int), (0 : Int)) = -1 ∧
     (Backtracking.solveRec 2 1000 4 0 0 0 Backtracking.initSt).1 = false ∧
     ((Backtracking.solveRec 2 1000 4 0 0 0 Backtracking.initSt).2.board =
        Backtracking.initSt.board ∧
      (Backtracking.solveRec 2 1000 4 0 0 0 Backtracking.initSt).2.path =
        Backtracking.initSt.path)) ∧
    ((0 ≤ ((0, 0) : Pos).1 ∧ ((0, 0) : Pos).1 < ((2 : Nat) : Int) ∧
      0 ≤ ((0, 0) : Pos).2 ∧ ((0, 0) : Pos).2 < ((2 : Nat) : Int)) ∧
     (Backtracking.solve 2 (0, 0) 60 1000).success = false ∧
     (Backtracking.solve 2 (0, 0) 60 1000).path = []) :=
  ⟨⟨rfl, by decide,
    (C10_false_restores_board_and_path 2 1000).1 4 0 0 0 Backtracking.initSt rfl (by decide)⟩,
   ⟨by decide, by decide,
    (C10_false_restores_board_and_path 2 1000).2 (0, 0) 60 (by decide) (by decide)⟩⟩

/-- C2 (counterexample): on a 5x5 board with the deadline firing at the
second check, the run explores the start square (recursive_calls = 1, so a
nonempty partial path existed at the moment of timeout), yet solve returns
the empty path, refuting the claim that the partial path explored so far is
returned. -/
theorem C2_counterexample_timeout_path_empty :
    (Backtracking.solve 5 (0, 0) 60 1).final.timedOut = true ∧
    (Backtracking.solve 5 (0, 0) 60 1).final.recursiveCalls = 1 ∧
    (Backtracking.solve 5 (0, 0) 60 1).success = false ∧
    (Backtracking.solve 5 (0, 0) 60 1).path = [] := by
  decide

/-- C2 (amended): when the search times out, solve returns success false,
an EMPTY path (backtracking unwinds every explored square on the way out),
the timed_out flag set in the stats, and an error message naming the
configured timeout duration. -/
theorem C2_amended_timeout_empty_path_flag_message (n : Nat) (start : Pos)
    (timeout : ℚ) (T : Nat)
    (h : (Backtracking.solve n start timeout T).final.timedOut = true) :
    (Backtracking.solve n start timeout T).success = false ∧
    (Backtracking.solve n start timeout T).path = [] ∧
    (Backtracking.solve n start timeout T).stats.timedOut = some true ∧
    (Backtracking.solve n start timeout T).stats.error =
      some (Backtracking.timeoutMsg timeout) := by
  by_cases hv : 0 ≤ start.1 ∧ start.1 < (n : Int) ∧ 0 ≤ start.2 ∧ start.2 < (n : Int)
  · have hto : (Backtracking.solveRec n T (n * n) start.1 start.2 0
        Backtracking.initSt).2.timedOut = true := by
      simpa [Backtracking.solve, hv] using h
    have hs : (Backtracking.solveRec n T (n * n) start.1 start.2 0
        Backtracking.initSt).1 = false := by
      cases hs' : (Backtracking.solveRec n T (n * n) start.1 start.2 0
          Backtracking.initSt).1 with
      | false => rfl
      | true =>
        have hpres := Backtracking.solveRec_success_to n T (n * n) start.1 start.2 0
          Backtracking.initSt (by intro hx; simp [Backtracking.initSt] at hx) hs'
        rw [hto] at hpres
        simp [Backtracking.initSt] at hpres
    have hframe := Backtracking.solveRec_frame n T (n * n) start.1 start.2 0
      Backtracking.initSt rfl hs
    have hpath : (Backtracking.solveRec n T (n * n) start.1 start.2 0
        Backtracking.initSt).2.path = [] := hframe.2
    simp [Backtracking.solve, hv, hs, hpath, hto]
  · have : (Backtracking.solve n start timeout T).final.timedOut = false := by
      simp [Backtracking.solve, hv, Backtracking.initSt]
    rw [h] at this
    exact absurd this (by simp)

/-- Witness for C2 (amended) at the 5x5, deadline-at-second-check run. -/
theorem C2_amended_timeout_empty_path_flag_message_witness :
    (Backtracking.solve 5 (0, 0) 60 1).final.timedOut = true ∧
    ((Backtracking.solve 5 (0, 0) 60 1).success = false ∧
     (Backtracking.solve 5 (0, 0) 60 1).path = [] ∧
     (Backtracking.solve 5 (0, 0) 60 1).stats.timedOut = some true ∧
     (Backtracking.solve 5 (0, 0) 60 1).stats.error =
       some (Backtracking.timeoutMsg 60)) :=
  ⟨by decide, C2_amended_timeout_empty_path_flag_message 5 (0, 0) 60 1 (by decide)⟩

end KnightsTour

namespace KnightsTour

namespace Backtracking

/-- Every valid destination is one knight step away from the source square. -/
theorem knightStep_of_mem_validDests {n : Nat} {b : Pos → Int} {x y : Int} {q : Pos}
    (hq : q ∈ validDests n b x y) : knightStep (x, y) q := by
  obtain ⟨-, d, hd, rfl⟩ := mem_validDests hq
  have e1 : x + d.1 - x = d.1 := by ring
  have e2 : y + d.2 - y = d.2 := by ring
  unfold knightStep
  rw [e1, e2]
  fin_cases hd <;> simp

/-- Success invariant of solve_recursive: under the run invariants (the
current square is unvisited, the path is duplicate-free, every path entry is
marked on the board, the path length equals move_count, and the path
extended by the current square is a knight chain), a successful call leaves
a path of length n*n, duplicate-free, forming a knight chain. -/
theorem solveRec_success_spec (n T : Nat) (hn : 0 < n) :
    ∀ (fuel : Nat) (x y : Int) (mc : Nat) (st : St),
      st.board (x, y) = -1 →
      st.path.Nodup →
      (∀ p ∈ st.path, st.board p ≠ -1) →
      st.path.length = mc →
      List.Chain' knightStep (st.path ++ [(x, y)]) →
      (solveRec n T fuel x y mc st).1 = true →
      ((solveRec n T fuel x y mc st).2.path.length = n * n ∧
       (solveRec n T fuel x y mc st).2.path.Nodup ∧
       List.Chain' knightStep (solveRec n T fuel x y mc st).2.path) := by
  intro fuel
  induction fuel with
  | zero =>
    intro x y mc st _ _ _ _ _ htrue
    exact absurd htrue (by simp [solveRec])
  | succ fuel ih =>
    intro x y mc st hb hnodup hvis hlen hchain htrue
    rw [solveRec] at htrue ⊢
    by_cases hk : T ≤ st.checks
    · rw [if_pos hk] at htrue
      exact absurd htrue (by simp)
    · rw [if_neg hk] at htrue ⊢
      set st2 : St := { st with
        checks := st.checks + 1,
        recursiveCalls := st.recursiveCalls + 1,
        board := setCell st.board x y (Int.ofNat mc),
        path := st.path ++ [(x, y)] } with hst2
      have hnot_mem : (x, y) ∉ st.path := fun hmem => (hvis _ hmem) hb
      have hnodup2 : (st.path ++ [(x, y)]).Nodup := by
        simp [List.nodup_append, hnodup, hnot_mem]
      have hvis2 : ∀ p ∈ st.path ++ [(x, y)], setCell st.board x y (Int.ofNat mc) p ≠ -1 := by
        intro p hp
        rcases List.mem_append.mp hp with hp1 | hp2
        · by_cases hpe : p = (x, y)
          · simp [setCell, hpe]
          · simp [setCell, hpe]
            exact hvis p hp1
        · have hpe : p = (x, y) := by simpa using hp2
          simp [setCell, hpe]
      by_cases hmc : mc = n * n - 1
      · rw [if_pos hmc] at htrue ⊢
        have hnn : 1 ≤ n * n := Nat.mul_pos hn hn
        refine ⟨?_, hnodup2, hchain⟩
        show (st.path ++ [(x, y)]).length = n * n
        rw [List.length_append, hlen, hmc]
        simp only [List.length_singleton]
        omega
      · rw [if_neg hmc] at htrue ⊢
        have hframe : ∀ q ∈ getOrderedMoves n st2.board x y, ∀ s : St,
            s.board = st2.board →
            (solveRec n T fuel q.1 q.2 (mc + 1) s).1 = false →
            ((solveRec n T fuel q.1 q.2 (mc + 1) s).2.board = s.board ∧
             (solveRec n T fuel q.1 q.2 (mc + 1) s).2.path = s.path) := by
          intro q hq s hs hfalse
          have hunv : st2.board q = -1 :=
            (mem_validDests (mem_getOrderedMoves.mp hq)).1
          have : s.board (q.1, q.2) = -1 := by rw [hs]; exact hunv
          exact solveRec_frame n T fuel q.1 q.2 (mc + 1) s this hfalse
        by_cases hr : (tryMoves (fun q s => solveRec n T fuel q.1 q.2 (mc + 1) s)
            (getOrderedMoves n st2.board x y) st2).1 = true
        · rw [if_pos hr]
          obtain ⟨q, hq, s, hsb, hsp, hcall⟩ :=
            tryMoves_true _ (getOrderedMoves n st2.board x y) st2 hframe hr
          have hqvalid : st2.board q = -1 :=
            (mem_validDests (mem_getOrderedMoves.mp hq)).1
          have hb' : s.board (q.1, q.2) = -1 := by rw [hsb]; exact hqvalid
          have hnodup' : s.path.Nodup := by rw [hsp]; exact hnodup2
          have hvis' : ∀ p ∈ s.path, s.board p ≠ -1 := by
            intro p hp
            rw [hsp] at hp
            rw [hsb]
            exact hvis2 p hp
          have hlen' : s.path.length = mc + 1 := by
            rw [hsp]
            show (st.path ++ [(x, y)]).length = mc + 1
            rw [List.length_append, hlen]
            simp
          have hstep : knightStep (x, y) q :=
            knightStep_of_mem_validDests (mem_getOrderedMoves.mp hq)
          have hchain' : List.Chain' knightStep (s.path ++ [(q.1, q.2)]) := by
            rw [hsp]
            show List.Chain' knightStep ((st.path ++ [(x, y)]) ++ [(q.1, q.2)])
            rw [List.chain'_append]
            refine ⟨hchain, List.chain'_singleton _, ?_⟩
            intro a ha c hc
            rw [List.getLast?_concat] at ha
            simp at ha hc
            rw [← ha, ← hc]
            exact hstep
          have hres := ih q.1 q.2 (mc + 1) s hb' hnodup' hvis' hlen' hchain'
            (by rw [hcall])
          rw [hcall] at hres
          exact hres
        · rw [if_neg hr] at htrue
          exact absurd htrue (by simp)

end Backtracking

end KnightsTour

namespace KnightsTour

namespace Cultural

/-- Move table KNIGHT_MOVES shared by BaseSolver (base_solver.py), the GA
levels, and MobilityManager (utils.py), in source order. -/
def KNIGHT_MOVES : List Pos :=
  [(-2, -1), (-2, 1), (-1, -2), (-1, 2), (1, -2), (1, 2), (2, -1), (2, 1)]

/-- is_valid_position of BaseSolver: bounds check. -/
def is_valid_position (n : Nat) (x y : Int) : Bool :=
  decide (0 ≤ x ∧ x < (n : Int) ∧ 0 ≤ y ∧ y < (n : Int))

/-- get_valid_moves_from of BaseSolver: on-board, unvisited destinations in
KNIGHT_MOVES order. -/
def get_valid_moves_from (n : Nat) (x y : Int) (visited : Finset Pos) : List Pos :=
  (KNIGHT_MOVES.map (fun d => (x + d.1, y + d.2))).filter
    (fun q => is_valid_position n q.1 q.2 && decide (q ∉ visited))

/-- apply_move of BaseSolver: an out-of-range move index leaves the position
unchanged; otherwise the indexed delta is added. -/
def apply_move (pos : Pos) (g : Int) : Pos :=
  if g < 0 ∨ 8 ≤ g then pos
  else
    let d := KNIGHT_MOVES.getD g.toNat (0, 0)
    (pos.1 + d.1, pos.2 + d.2)

/-- Degree computation of EnhancedGASolver._get_mobility
(level2_enhanced_ga.py): count of on-board, unvisited knight neighbors. -/
def solverGetMobility (n : Nat) (p : Pos) (visited : Finset Pos) : Nat :=
  ((KNIGHT_MOVES.map (fun d => (p.1 + d.1, p.2 + d.2))).filter
    (fun q => is_valid_position n q.1 q.2 && decide (q ∉ visited))).length

/-- MobilityManager of utils.py: a per-decode cache mapping squares to their
mobility.  The Python dict is modelled by a partial map; absent keys answer
none. -/
structure MobilityManager where
  n : Nat
  cache : Pos → Option Nat

namespace MobilityManager

/-- _calculate_mobility of MobilityManager: same loop as the solver degree
computation. -/
def calcMob (n : Nat) (p : Pos) (visited : Finset Pos) : Nat :=
  ((KNIGHT_MOVES.map (fun d => (p.1 + d.1, p.2 + d.2))).filter
    (fun q => is_valid_position n q.1 q.2 && decide (q ∉ visited))).length

/-- __init__ / _initialize_mobility: the cache holds exactly the on-board
squares not in the visited set, each mapped to its current mobility. -/
def init (n : Nat) (visited : Finset Pos) : MobilityManager :=
  { n := n,
    cache := fun p =>
      if is_valid_position n p.1 p.2 && decide (p ∉ visited) then
        some (calcMob n p visited)
      else none }

/-- get_mobility: cache lookup with default 0 (dict.get(key, 0)). -/
def get_mobility (m : MobilityManager) (x y : Int) : Nat :=
  (m.cache (x, y)).getD 0

/-- update_after_move: delete the moved-to square from the cache, then
recompute the mobility of every cached on-board knight neighbor of the move
against the new visited set (which already contains the move). -/
def update_after_move (m : MobilityManager) (mv : Pos) (visited : Finset Pos) :
    MobilityManager :=
  { m with cache := fun p =>
      if p = mv then none
      else if (KNIGHT_MOVES.any (fun d => p = (mv.1 + d.1, mv.2 + d.2))) &&
              is_valid_position m.n p.1 p.2 && (m.cache p).isSome then
        some (calcMob m.n p visited)
      else m.cache p }

end MobilityManager

/-- BeliefSpace of level3_cultural_ga.py: per-move usage/success counters
(keys 0..7), the position difficulty map (visits, successes), the elite
archive and the generation counter. -/
structure BeliefSpace where
  n : Nat
  move_success : Int → Nat
  move_usage : Int → Nat
  mobility_map : Pos → Option (Nat × Nat)
  best_individuals : List (List Int × ℚ × List Pos)
  generation_count : Nat

namespace BeliefSpace

/-- __init__ of BeliefSpace: zeroed counters, empty maps. -/
def init (n : Nat) : BeliefSpace :=
  { n := n, move_success := fun _ => 0, move_usage := fun _ => 0,
    mobility_map := fun _ => none, best_individuals := [],
    generation_count := 0 }

/-- get_position_difficulty: 1 - successes/visits for a known position,
neutral 0.5 otherwise. -/
def get_position_difficulty (bs : BeliefSpace) (p : Pos) : ℚ :=
  match bs.mobility_map p with
  | none => 1 / 2
  | some (v, s) => if v = 0 then 1 / 2 else 1 - (s : ℚ) / (v : ℚ)

end BeliefSpace

/-- Decoder state of CulturalAlgorithmSolver.decode: path, visited set,
current position, and the per-decode mobility cache. -/
structure DecSt where
  path : List Pos
  visited : Finset Pos
  current : Pos
  mm : MobilityManager

/-- Shared acceptance step of decode: append the move, add it to the
visited set, advance the current position, and update the mobility cache
with the new visited set. -/
def acceptMove (st : DecSt) (p : Pos) : DecSt :=
  let visited' := insert p st.visited
  { path := st.path ++ [p], visited := visited', current := p,
    mm := MobilityManager.update_after_move st.mm p visited' }

/-- Running-maximum selection loop used by the decode repair logic: walk the
candidates keeping the first candidate whose score strictly beats the
running maximum, started below every real score. -/
def pickMax {B : Type} [LinearOrder B] (g : Pos → B) (init : B) (cands : List Pos) :
    Option Pos × B :=
  cands.foldl (fun acc cand =>
    if acc.2 < g cand then (some cand, g cand) else acc) (none, init)

/-- Tie-break score of CulturalAlgorithmSolver.decode:
mobility*2 + future_moves - difficulty*10. -/
def cultScore (n : Nat) (bs : BeliefSpace) (st : DecSt) (cand : Pos) : ℚ :=
  (MobilityManager.get_mobility st.mm cand.1 cand.2 : ℚ) * 2 +
  ((get_valid_moves_from n cand.1 cand.2 (insert cand st.visited)).length : ℚ) -
  BeliefSpace.get_position_difficulty bs cand * 10

/-- Fallback repair move of CulturalAlgorithmSolver.decode.  Returns none
exactly when there is no legal destination (the Python break).  With
use_warnsdorff: restrict to minimal-mobility candidates, take the unique one
or tie-break by maximising cultScore over a running maximum started at -1
(falling back to the first candidate when no score beats -1); without
use_warnsdorff: the same scoring over all legal destinations, falling back
to the first legal destination. -/
def repairChoice (n : Nat) (uw : Bool) (bs : BeliefSpace) (st : DecSt) : Option Pos :=
  let valid_moves := get_valid_moves_from n st.current.1 st.current.2 st.visited
  if valid_moves = [] then none
  else
    let best :=
      if uw then
        let move_mobilities := valid_moves.map
          (fun mv => (mv, MobilityManager.get_mobility st.mm mv.1 mv.2))
        match move_mobilities with
        | [] => none
        | m0 :: rest =>
          let min_mobility := (rest.map Prod.snd).foldl min m0.2
          let best_moves := (move_mobilities.filter
            (fun x => x.2 == min_mobility)).map Prod.fst
          if best_moves.length = 1 then best_moves.head?
          else
            match (pickMax (cultScore n bs st) (-1) best_moves).1 with
            | some b => some b
            | none => if best_moves ≠ [] then best_moves.head? else none
      else
        (pickMax (cultScore n bs st) (-1) valid_moves).1
    match best with
    | some b => some b
    | none => valid_moves.head?

/-- Gene loop of CulturalAlgorithmSolver.decode (cultural.py): stop when the
board is covered; try the gene's move and accept it when legal, unvisited
and (mobile or early-game-and-easy); otherwise fall back to the repair move,
stopping when none exists. -/
def decodeGo (n : Nat) (uw : Bool) (bs : BeliefSpace) : List Int → DecSt → DecSt
  | [], st => st
  | g :: rest, st =>
    if n * n ≤ st.visited.card then st
    else
      let next := apply_move st.current g
      if is_valid_position n next.1 next.2 && decide (next ∉ st.visited) then
        let mobility := if uw then MobilityManager.get_mobility st.mm next.1 next.2
          else solverGetMobility n next (insert next st.visited)
        let difficulty := BeliefSpace.get_position_difficulty bs next
        if 0 < mobility ∨ (st.visited.card < 5 ∧ difficulty < 7 / 10) then
          decodeGo n uw bs rest (acceptMove st next)
        else
          match repairChoice n uw bs st with
          | none => st
          | some b => decodeGo n uw bs rest (acceptMove st b)
      else
        match repairChoice n uw bs st with
        | none => st
        | some b => decodeGo n uw bs rest (acceptMove st b)

/-- decode of CulturalAlgorithmSolver: run the gene loop from the seeded
start state and return the path. -/
def decode (n : Nat) (uw : Bool) (bs : BeliefSpace) (chrom : List Int) (start : Pos) :
    List Pos :=
  (decodeGo n uw bs chrom
    { path := [start], visited := {start}, current := start,
      mm := MobilityManager.init n {start} }).path

/-- Fallback move of SimpleGASolver.decode: among the first up-to-3 legal
destinations pick the one maximising onward moves (running maximum started
at -1, so in fact the first candidate always scores), falling back to the
first legal destination; none exactly when no legal destination remains
(the Python break). -/
def simpleRepair (n : Nat) (visited : Finset Pos) (current : Pos) : Option Pos :=
  let valid_moves := get_valid_moves_from n current.1 current.2 visited
  if valid_moves = [] then none
  else
    match (pickMax (fun cand => ((get_valid_moves_from n cand.1 cand.2
        (insert cand visited)).length : Int)) (-1)
        (valid_moves.take (min 3 valid_moves.length))).1 with
    | some b => some b
    | none => valid_moves.head?

/-- Gene loop of SimpleGASolver.decode (level1_simple_ga.py): accept a legal
unvisited gene move, else take the heuristic fallback move, stopping when no
legal destination remains. -/
def decodeSimpleGo (n : Nat) : List Int → List Pos × Finset Pos × Pos →
    List Pos × Finset Pos × Pos
  | [], st => st
  | g :: rest, (path, visited, current) =>
    if n * n ≤ visited.card then (path, visited, current)
    else
      let next := apply_move current g
      if is_valid_position n next.1 next.2 && decide (next ∉ visited) then
        decodeSimpleGo n rest (path ++ [next], insert next visited, next)
      else
        match simpleRepair n visited current with
        | none => (path, visited, current)
        | some b => decodeSimpleGo n rest (path ++ [b], insert b visited, b)

/-- decode of SimpleGASolver. -/
def decodeSimple (n : Nat) (chrom : List Int) (start : Pos) : List Pos :=
  (decodeSimpleGo n chrom ([start], {start}, start)).1

/-- Legal-knight-transition test as written in the fitness loops:
(|dx|,|dy|) equals (2,1) or (1,2). -/
def isLegalTransition (p q : Pos) : Bool :=
  ((q.1 - p.1).natAbs == 2 && (q.2 - p.2).natAbs == 1) ||
  ((q.1 - p.1).natAbs == 1 && (q.2 - p.2).natAbs == 2)

/-- Accumulator of the CulturalAlgorithmSolver.fitness path loop. -/
structure FitAcc where
  legal : Nat
  consec : Nat
  curSeg : Nat
  lowDeg : Nat
  totalMob : Nat

/-- Path loop of CulturalAlgorithmSolver.fitness: grow the visited set,
accumulate mobility and low-degree visits, and track legal transitions and
consecutive segments. -/
def fitLoop (n : Nat) : List Pos → Finset Pos → FitAcc → FitAcc
  | [], _, acc => acc
  | p :: rest, vis, acc =>
    let vis' := insert p vis
    let mob := solverGetMobility n p vis'
    let acc1 : FitAcc := { acc with
      totalMob := acc.totalMob + mob,
      lowDeg := if mob ≤ 2 then acc.lowDeg + 1 else acc.lowDeg }
    match rest with
    | [] => acc1
    | q :: _ =>
      let acc2 : FitAcc :=
        if isLegalTransition p q then
          { acc1 with legal := acc1.legal + 1, curSeg := acc1.curSeg + 1 }
        else
          { acc1 with consec := acc1.consec + acc1.curSeg, curSeg := 1 }
      fitLoop n rest vis' acc2

/-- fitness of CulturalAlgorithmSolver (cultural.py): decode the chromosome
and combine coverage, legal transitions, consecutive segments, average
mobility (weight 2, the inherited mobility_weight), low-degree visits and
the repeat penalty, plus the completion bonus of 500. -/
def fitness (n : Nat) (uw : Bool) (bs : BeliefSpace) (chrom : List Int) (start : Pos) :
    ℚ :=
  let path := decode n uw bs chrom start
  if path = [] then 0
  else
    let unique_count := path.toFinset.card
    let acc := fitLoop n path ∅
      { legal := 0, consec := 0, curSeg := 1, lowDeg := 0, totalMob := 0 }
    let consec := acc.consec + acc.curSeg
    let repeat_penalty : ℚ :=
      if unique_count < path.length then ((path.length - unique_count : Nat) : ℚ) * 15
      else 0
    let avg_mobility : ℚ :=
      if 0 < path.length then (acc.totalMob : ℚ) / (path.length : ℚ) else 0
    let score := (unique_count : ℚ) * 20 + (acc.legal : ℚ) * 10 + (consec : ℚ) * 4 +
      avg_mobility * 2 + (acc.lowDeg : ℚ) * 5 - repeat_penalty
    if unique_count = n * n then score + 500 else score

end Cultural

end KnightsTour

namespace KnightsTour

namespace Cultural

/-- A candidate selected by the running-maximum loop is one of the
candidates. -/
theorem pickMax_mem {B : Type} [LinearOrder B] (g : Pos → B) :
    ∀ (l : List Pos) (acc : Option Pos × B) (b : Pos),
      (l.foldl (fun acc cand =>
        if acc.2 < g cand then (some cand, g cand) else acc) acc).1 = some b →
      b ∈ l ∨ acc.1 = some b := by
  intro l
  induction l with
  | nil => intro acc b h; exact Or.inr h
  | cons c rest ih =>
    intro acc b h
    rw [List.foldl_cons] at h
    rcases ih _ b h with hmem | hacc
    · exact Or.inl (List.mem_cons_of_mem c hmem)
    · by_cases hlt : acc.2 < g c
      · rw [if_pos hlt] at hacc
        have : c = b := by simpa using hacc
        exact Or.inl (this ▸ List.mem_cons_self c rest)
      · rw [if_neg hlt] at hacc
        exact Or.inr hacc

/-- Membership form of the previous lemma with the initial accumulator of
the source code. -/
theorem pickMax_mem_init {B : Type} [LinearOrder B] (g : Pos → B) (i : B)
    (l : List Pos) (b : Pos) (h : (pickMax g i l).1 = some b) : b ∈ l := by
  rcases pickMax_mem g l (none, i) b h with hmem | hacc
  · exact hmem
  · exact absurd hacc (by simp)

/-- Legal destinations are unvisited and one knight delta away. -/
theorem mem_get_valid_moves_from {n : Nat} {x y : Int} {visited : Finset Pos} {q : Pos}
    (hq : q ∈ get_valid_moves_from n x y visited) :
    q ∉ visited ∧ ∃ d ∈ KNIGHT_MOVES, q = (x + d.1, y + d.2) := by
  rw [get_valid_moves_from] at hq
  have hmem := List.mem_filter.mp hq
  obtain ⟨d, hd, rfl⟩ := List.mem_map.mp hmem.1
  have hv := hmem.2
  rw [Bool.and_eq_true] at hv
  exact ⟨of_decide_eq_true hv.2, d, hd, rfl⟩

/-- Deltas of the KNIGHT_MOVES table are knight steps. -/
theorem knightStep_of_mem_KNIGHT_MOVES {d : Pos} (hd : d ∈ KNIGHT_MOVES) (x y : Int) :
    knightStep (x, y) (x + d.1, y + d.2) := by
  have e1 : x + d.1 - x = d.1 := by ring
  have e2 : y + d.2 - y = d.2 := by ring
  unfold knightStep
  rw [e1, e2]
  fin_cases hd <;> simp

/-- Legal destinations are one knight step from the source square. -/
theorem knightStep_of_mem_valid_moves {n : Nat} {x y : Int} {visited : Finset Pos}
    {q : Pos} (hq : q ∈ get_valid_moves_from n x y visited) : knightStep (x, y) q := by
  obtain ⟨-, d, hd, rfl⟩ := mem_get_valid_moves_from hq
  exact knightStep_of_mem_KNIGHT_MOVES hd x y

/-- A move produced by apply_move that moved at all is a knight step. -/
theorem knightStep_of_apply_move (pos : Pos) (g : Int)
    (h : apply_move pos g ≠ pos) : knightStep pos (apply_move pos g) := by
  rw [apply_move] at h ⊢
  by_cases hg : g < 0 ∨ 8 ≤ g
  · rw [if_pos hg] at h
    exact absurd rfl h
  · rw [if_neg hg] at h ⊢
    have hlt : g.toNat < KNIGHT_MOVES.length := by
      push_neg at hg
      simp [KNIGHT_MOVES]
      omega
    have hmem : KNIGHT_MOVES.getD g.toNat (0, 0) ∈ KNIGHT_MOVES := by
      rw [List.getD_eq_getElem _ _ hlt]
      exact List.getElem_mem _
    have := knightStep_of_mem_KNIGHT_MOVES hmem pos.1 pos.2
    simpa using this

/-- A returned repair move is one of the legal destinations. -/
theorem repairChoice_mem {n : Nat} {uw : Bool} {bs : BeliefSpace} {st : DecSt} {b : Pos}
    (h : repairChoice n uw bs st = some b) :
    b ∈ get_valid_moves_from n st.current.1 st.current.2 st.visited := by
  rw [repairChoice] at h
  by_cases hvm : get_valid_moves_from n st.current.1 st.current.2 st.visited = []
  · rw [if_pos hvm] at h
    exact absurd h (by simp)
  · rw [if_neg hvm] at h
    set valid_moves := get_valid_moves_from n st.current.1 st.current.2 st.visited
      with hvmdef
    have hhead : ∀ c : Pos, valid_moves.head? = some c → c ∈ valid_moves := by
      intro c hc
      exact List.mem_of_mem_head? hc
    have hbm : ∀ (m0 : Pos × Nat) (rest : List (Pos × Nat)) (c : Pos),
        valid_moves.map (fun mv => (mv, MobilityManager.get_mobility st.mm mv.1 mv.2)) =
          m0 :: rest →
        c ∈ ((m0 :: rest).filter
          (fun x => x.2 == (rest.map Prod.snd).foldl min m0.2)).map Prod.fst →
        c ∈ valid_moves := by
      intro m0 rest c hmm hc
      obtain ⟨a, ha, rfl⟩ := List.mem_map.mp hc
      have ha2 := (List.mem_filter.mp ha).1
      rw [← hmm] at ha2
      obtain ⟨mv, hmv, hmveq⟩ := List.mem_map.mp ha2
      rw [← hmveq]
      exact hmv
    by_cases huw : uw = true
    · rw [huw] at h
      simp only [if_true] at h
      cases hmm : valid_moves.map
          (fun mv => (mv, MobilityManager.get_mobility st.mm mv.1 mv.2)) with
      | nil =>
        rw [hmm] at h
        simp only [] at h
        cases hh : valid_moves.head? with
        | none =>
          rw [hh] at h
          exact absurd h (by simp)
        | some c =>
          rw [hh] at h
          have : c = b := by simpa using h
          exact this ▸ hhead c hh
      | cons m0 rest =>
        rw [hmm] at h
        simp only [] at h
        by_cases hlen : (((m0 :: rest).filter
            (fun x => x.2 == (rest.map Prod.snd).foldl min m0.2)).map Prod.fst).length = 1
        · rw [if_pos hlen] at h
          cases hh : ((m0 :: rest).filter
              (fun x => x.2 == (rest.map Prod.snd).foldl min m0.2)).map Prod.fst
              |>.head? with
          | none =>
            rw [hh] at h
            cases hh2 : valid_moves.head? with
            | none => rw [hh2] at h; exact absurd h (by simp)
            | some c =>
              rw [hh2] at h
              have : c = b := by simpa using h
              exact this ▸ hhead c hh2
          | some c =>
            rw [hh] at h
            have hcb : c = b := by simpa using h
            exact hbm m0 rest b hmm (hcb ▸ List.mem_of_mem_head? hh)
        · rw [if_neg hlen] at h
          cases hpick : (pickMax
              (cultScore n bs st) (-1)
              (((m0 :: rest).filter
                (fun x => x.2 == (rest.map Prod.snd).foldl min m0.2)).map Prod.fst)).1 with
          | some c =>
            rw [hpick] at h
            have hcb : c = b := by simpa using h
            exact hbm m0 rest b hmm (hcb ▸ pickMax_mem_init _ _ _ c hpick)
          | none =>
            rw [hpick] at h
            by_cases hne : (((m0 :: rest).filter
                (fun x => x.2 == (rest.map Prod.snd).foldl min m0.2)).map Prod.fst) ≠ []
            · rw [if_pos hne] at h
              cases hh : (((m0 :: rest).filter
                  (fun x => x.2 == (rest.map Prod.snd).foldl min m0.2)).map Prod.fst).head? with
              | none =>
                rw [hh] at h
                cases hh2 : valid_moves.head? with
                | none => rw [hh2] at h; exact absurd h (by simp)
                | some c =>
                  rw [hh2] at h
                  have : c = b := by simpa using h
                  exact this ▸ hhead c hh2
              | some c =>
                rw [hh] at h
                have hcb : c = b := by simpa using h
                exact hbm m0 rest b hmm (hcb ▸ List.mem_of_mem_head? hh)
            · rw [if_neg hne] at h
              cases hh2 : valid_moves.head? with
              | none => rw [hh2] at h; exact absurd h (by simp)
              | some c =>
                rw [hh2] at h
                have : c = b := by simpa using h
                exact this ▸ hhead c hh2
    · have huw' : uw = false := by
        cases uw
        · rfl
        · exact absurd rfl huw
      rw [huw'] at h
      simp only [if_false] at h
      cases hpick : (pickMax (cultScore n bs st) (-1) valid_moves).1 with
      | some c =>
        rw [hpick] at h
        have hcb : c = b := by simpa using h
        exact hcb ▸ pickMax_mem_init _ _ _ c hpick
      | none =>
        rw [hpick] at h
        cases hh2 : valid_moves.head? with
        | none => rw [hh2] at h; exact absurd h (by simp)
        | some c =>
          rw [hh2] at h
          have : c = b := by simpa using h
          exact this ▸ hhead c hh2

end Cultural

end KnightsTour

namespace KnightsTour

namespace Cultural

/-- Run invariant of the cultural decoder state: duplicate-free path, every
path entry visited, current position visited and equal to the last path
entry, and the path forms a knight chain. -/
def DecodeInv (st : DecSt) : Prop :=
  st.path.Nodup ∧ (∀ p ∈ st.path, p ∈ st.visited) ∧ st.current ∈ st.visited ∧
  List.Chain' knightStep st.path ∧ st.path.getLast? = some st.current

/-- Accepting an unvisited knight-step move preserves the decoder
invariant. -/
theorem acceptMove_inv (st : DecSt) (p : Pos) (hinv : DecodeInv st)
    (hp : p ∉ st.visited) (hstep : knightStep st.current p) :
    DecodeInv (acceptMove st p) := by
  obtain ⟨hnodup, hsub, hcur, hchain, hlast⟩ := hinv
  have hnp : p ∉ st.path := fun hmem => hp (hsub p hmem)
  refine ⟨?_, ?_, ?_, ?_, ?_⟩
  · show (st.path ++ [p]).Nodup
    simp [List.nodup_append, hnodup, hnp]
  · intro q hq
    rcases List.mem_append.mp hq with h1 | h2
    · exact Finset.mem_insert_of_mem (hsub q h1)
    · have : q = p := by simpa using h2
      rw [this]
      exact Finset.mem_insert_self p st.visited
  · exact Finset.mem_insert_self p st.visited
  · show List.Chain' knightStep (st.path ++ [p])
    rw [List.chain'_append]
    refine ⟨hchain, List.chain'_singleton p, ?_⟩
    intro a ha c hc
    rw [hlast] at ha
    simp at ha hc
    rw [← ha, ← hc]
    exact hstep
  · show (st.path ++ [p]).getLast? = some p
    exact List.getLast?_concat _

/-- The cultural decode loop preserves the decoder invariant: every accepted
move (gene move or repair move) is unvisited and one knight step from the
current square. -/
theorem decodeGo_inv (n : Nat) (uw : Bool) (bs : BeliefSpace) :
    ∀ (chrom : List Int) (st : DecSt), DecodeInv st →
      DecodeInv (decodeGo n uw bs chrom st) := by
  intro chrom
  induction chrom with
  | nil => intro st hinv; exact hinv
  | cons g rest ih =>
    intro st hinv
    rw [decodeGo]
    by_cases hcard : n * n ≤ st.visited.card
    · rw [if_pos hcard]; exact hinv
    · rw [if_neg hcard]
      have hrepair : DecodeInv (match repairChoice n uw bs st with
          | none => st
          | some b => decodeGo n uw bs rest (acceptMove st b)) := by
        cases hrc : repairChoice n uw bs st with
        | none => exact hinv
        | some b =>
          have hb := repairChoice_mem hrc
          have hbv := (mem_get_valid_moves_from hb).1
          have hstep : knightStep st.current b := knightStep_of_mem_valid_moves hb
          exact ih _ (acceptMove_inv st b hinv hbv hstep)
      by_cases hok : (is_valid_position n (apply_move st.current g).1
          (apply_move st.current g).2 && decide (apply_move st.current g ∉ st.visited)) = true
      · rw [if_pos hok]
        rw [Bool.and_eq_true] at hok
        have hnv : apply_move st.current g ∉ st.visited := of_decide_eq_true hok.2
        have hne : apply_move st.current g ≠ st.current := by
          intro he
          rw [he] at hnv
          exact hnv hinv.2.2.1
        have hstep : knightStep st.current (apply_move st.current g) :=
          knightStep_of_apply_move st.current g hne
        by_cases hmob : (0 < (if uw then MobilityManager.get_mobility st.mm
              (apply_move st.current g).1 (apply_move st.current g).2
            else solverGetMobility n (apply_move st.current g)
              (insert (apply_move st.current g) st.visited)) ∨
            (st.visited.card < 5 ∧
             BeliefSpace.get_position_difficulty bs (apply_move st.current g) < 7 / 10))
        · rw [if_pos hmob]
          exact ih _ (acceptMove_inv st _ hinv hnv hstep)
        · rw [if_neg hmob]
          exact hrepair
      · rw [if_neg hok]
        exact hrepair

/-- A returned simple-GA fallback move is one of the legal destinations. -/
theorem simpleRepair_mem {n : Nat} {visited : Finset Pos} {current : Pos} {b : Pos}
    (h : simpleRepair n visited current = some b) :
    b ∈ get_valid_moves_from n current.1 current.2 visited := by
  rw [simpleRepair] at h
  by_cases hvm : get_valid_moves_from n current.1 current.2 visited = []
  · rw [if_pos hvm] at h
    exact absurd h (by simp)
  · rw [if_neg hvm] at h
    cases hpick : (pickMax (fun cand => ((get_valid_moves_from n cand.1 cand.2
        (insert cand visited)).length : Int)) (-1)
        ((get_valid_moves_from n current.1 current.2 visited).take
          (min 3 (get_valid_moves_from n current.1 current.2 visited).length))).1 with
    | some c =>
      rw [hpick] at h
      have hcb : c = b := by simpa using h
      have hmem : c ∈ (get_valid_moves_from n current.1 current.2 visited).take
          (min 3 (get_valid_moves_from n current.1 current.2 visited).length) :=
        pickMax_mem_init _ _ _ c hpick
      exact hcb ▸ (List.take_sublist _ _).subset hmem
    | none =>
      rw [hpick] at h
      cases hh : (get_valid_moves_from n current.1 current.2 visited).head? with
      | some c =>
        rw [hh] at h
        have hcb : c = b := by simpa using h
        exact hcb ▸ List.mem_of_mem_head? hh
      | none =>
        rw [hh] at h
        exact absurd h (by simp)

/-- The Nodup and coverage parts of the invariant for the simple-GA decode
loop. -/
theorem decodeSimpleGo_inv (n : Nat) :
    ∀ (chrom : List Int) (path : List Pos) (visited : Finset Pos) (current : Pos),
      path.Nodup → (∀ p ∈ path, p ∈ visited) →
      ((decodeSimpleGo n chrom (path, visited, current)).1.Nodup ∧
       ∀ p ∈ (decodeSimpleGo n chrom (path, visited, current)).1,
         p ∈ (decodeSimpleGo n chrom (path, visited, current)).2.1) := by
  intro chrom
  induction chrom with
  | nil => intro path visited current hnodup hsub; exact ⟨hnodup, hsub⟩
  | cons g rest ih =>
    intro path visited current hnodup hsub
    rw [decodeSimpleGo]
    have hstep : ∀ b : Pos, b ∉ visited →
        ((decodeSimpleGo n rest (path ++ [b], insert b visited, b)).1.Nodup ∧
         ∀ p ∈ (decodeSimpleGo n rest (path ++ [b], insert b visited, b)).1,
           p ∈ (decodeSimpleGo n rest (path ++ [b], insert b visited, b)).2.1) := by
      intro b hb
      have hnb : b ∉ path := fun hmem => hb (hsub b hmem)
      refine ih (path ++ [b]) (insert b visited) b ?_ ?_
      · simp [List.nodup_append, hnodup, hnb]
      · intro p hp
        rcases List.mem_append.mp hp with h1 | h2
        · exact Finset.mem_insert_of_mem (hsub p h1)
        · have : p = b := by simpa using h2
          rw [this]
          exact Finset.mem_insert_self b visited
    by_cases hcard : n * n ≤ visited.card
    · rw [if_pos hcard]; exact ⟨hnodup, hsub⟩
    · rw [if_neg hcard]
      by_cases hok : (is_valid_position n (apply_move current g).1
          (apply_move current g).2 && decide (apply_move current g ∉ visited)) = true
      · rw [if_pos hok]
        rw [Bool.and_eq_true] at hok
        exact hstep _ (of_decide_eq_true hok.2)
      · rw [if_neg hok]
        cases hrc : simpleRepair n visited current with
        | none => exact ⟨hnodup, hsub⟩
        | some b =>
          have hmem2 : b ∈ get_valid_moves_from n current.1 current.2 visited :=
            simpleRepair_mem hrc
          exact hstep b (mem_get_valid_moves_from hmem2).1

end Cultural

end KnightsTour

namespace KnightsTour

/-- C6: for every chromosome (any finite sequence of integers, including
out-of-range gene values) and every valid start position, the paths produced
by CulturalAlgorithmSolver.decode and SimpleGASolver.decode contain no
duplicate position. -/
theorem C6_decode_never_duplicates (n : Nat) (uw : Bool) (bs : Cultural.BeliefSpace)
    (chrom : List Int) (start : Pos)
    (hs : 0 ≤ start.1 ∧ start.1 < (n : Int) ∧ 0 ≤ start.2 ∧ start.2 < (n : Int)) :
    (Cultural.decode n uw bs chrom start).Nodup ∧
    (Cultural.decodeSimple n chrom start).Nodup := by
  constructor
  · have hinv : Cultural.DecodeInv
        { path := [start], visited := {start}, current := start,
          mm := Cultural.MobilityManager.init n {start} } := by
      refine ⟨List.nodup_singleton _, ?_, ?_, List.chain'_singleton _, rfl⟩
      · intro p hp
        have : p = start := by simpa using hp
        rw [this]
        exact Finset.mem_singleton_self start
      · exact Finset.mem_singleton_self start
    exact (Cultural.decodeGo_inv n uw bs chrom _ hinv).1
  · have := Cultural.decodeSimpleGo_inv n chrom [start] {start} start
      (List.nodup_singleton _) ?_
    · exact this.1
    · intro p hp
      have : p = start := by simpa using hp
      rw [this]
      exact Finset.mem_singleton_self start

/-- Witness for C6 on a 5x5 board with a chromosome mixing in-range and
out-of-range genes. -/
theorem C6_decode_never_duplicates_witness :
    (0 ≤ ((0, 0) : Pos).1 ∧ ((0, 0) : Pos).1 < ((5 : Nat) : Int) ∧
     0 ≤ ((0, 0) : Pos).2 ∧ ((0, 0) : Pos).2 < ((5 : Nat) : Int)) ∧
    ((Cultural.decode 5 true (Cultural.BeliefSpace.init 5) [5, 7, 3, -2, 99] (0, 0)).Nodup ∧
     (Cultural.decodeSimple 5 [5, 7, 3, -2, 99] (0, 0)).Nodup) :=
  ⟨by decide,
   C6_decode_never_duplicates 5 true (Cultural.BeliefSpace.init 5) [5, 7, 3, -2, 99]
     (0, 0) (by decide)⟩

/-- C1: every successful solver result is a full knight tour.  First part:
whenever BacktrackingSolver.solve reports success, the returned path has
length n*n, is duplicate-free and each consecutive pair is a legal knight
delta.  Second part: the evolutionary success test of evolve is exactly
unique-cell-count = n*n applied to a decode output (the best path is always
a decode output, or the initial empty list which passes the test only for
n = 0, where the properties are trivial); every decode output passing that
test has the same three properties. -/
theorem C1_success_paths_are_valid_tours :
    (∀ (n : Nat) (start : Pos) (timeout : ℚ) (T : Nat),
      (Backtracking.solve n start timeout T).success = true →
      ((Backtracking.solve n start timeout T).path.length = n * n ∧
       (Backtracking.solve n start timeout T).path.Nodup ∧
       List.Chain' knightStep (Backtracking.solve n start timeout T).path)) ∧
    (∀ (n : Nat) (uw : Bool) (bs : Cultural.BeliefSpace) (chrom : List Int) (start : Pos),
      (Cultural.decode n uw bs chrom start).toFinset.card = n * n →
      ((Cultural.decode n uw bs chrom start).length = n * n ∧
       (Cultural.decode n uw bs chrom start).Nodup ∧
       List.Chain' knightStep (Cultural.decode n uw bs chrom start))) := by
  constructor
  · intro n start timeout T hsucc
    by_cases hv : 0 ≤ start.1 ∧ start.1 < (n : Int) ∧ 0 ≤ start.2 ∧ start.2 < (n : Int)
    · have hsucc' : (Backtracking.solveRec n T (n * n) start.1 start.2 0
          Backtracking.initSt).1 = true := by
        simpa [Backtracking.solve, hv] using hsucc
      have hn : 0 < n := by
        have h0 : (0 : Int) < (n : Int) := lt_of_le_of_lt hv.1 hv.2.1
        exact_mod_cast h0
      have hspec := Backtracking.solveRec_success_spec n T hn (n * n) start.1 start.2 0
        Backtracking.initSt rfl List.nodup_nil
        (by intro p hp; simp [Backtracking.initSt] at hp)
        rfl
        (by
          show List.Chain' knightStep ([] ++ [(start.1, start.2)])
          simpa using List.chain'_singleton ((start.1, start.2) : Pos))
        hsucc'
      refine ⟨?_, ?_, ?_⟩
      · show (Backtracking.solve n start timeout T).path.length = n * n
        simpa [Backtracking.solve, hv] using hspec.1
      · show (Backtracking.solve n start timeout T).path.Nodup
        simpa [Backtracking.solve, hv] using hspec.2.1
      · show List.Chain' knightStep (Backtracking.solve n start timeout T).path
        simpa [Backtracking.solve, hv] using hspec.2.2
    · have : (Backtracking.solve n start timeout T).success = false := by
        simp [Backtracking.solve, hv]
      rw [hsucc] at this
      exact absurd this (by simp)
  · intro n uw bs chrom start hcard
    have hinv : Cultural.DecodeInv
        { path := [start], visited := {start}, current := start,
          mm := Cultural.MobilityManager.init n {start} } := by
      refine ⟨List.nodup_singleton _, ?_, ?_, List.chain'_singleton _, rfl⟩
      · intro p hp
        have : p = start := by simpa using hp
        rw [this]
        exact Finset.mem_singleton_self start
      · exact Finset.mem_singleton_self start
    have hres := Cultural.decodeGo_inv n uw bs chrom _ hinv
    have hlen : (Cultural.decode n uw bs chrom start).toFinset.card =
        (Cultural.decode n uw bs chrom start).length :=
      List.toFinset_card_of_nodup hres.1
    exact ⟨hlen ▸ hcard, hres.1, hres.2.2.2.1⟩

/-- Witness for C1 on the 1x1 board: the backtracking solver succeeds with
the single-square tour, and the decoded empty chromosome covers the board. -/
theorem C1_success_paths_are_valid_tours_witness :
    ((Backtracking.solve 1 (0, 0) 60 1000).success = true ∧
     ((Backtracking.solve 1 (0, 0) 60 1000).path.length = 1 * 1 ∧
      (Backtracking.solve 1 (0, 0) 60 1000).path.Nodup ∧
      List.Chain' knightStep (Backtracking.solve 1 (0, 0) 60 1000).path)) ∧
    ((Cultural.decode 1 true (Cultural.BeliefSpace.init 1) [] (0, 0)).toFinset.card = 1 * 1 ∧
     ((Cultural.decode 1 true (Cultural.BeliefSpace.init 1) [] (0, 0)).length = 1 * 1 ∧
      (Cultural.decode 1 true (Cultural.BeliefSpace.init 1) [] (0, 0)).Nodup ∧
      List.Chain' knightStep (Cultural.decode 1 true (Cultural.BeliefSpace.init 1) [] (0, 0)))) :=
  ⟨⟨by decide, C1_success_paths_are_valid_tours.1 1 (0, 0) 60 1000 (by decide)⟩,
   ⟨by decide, C1_success_paths_are_valid_tours.2 1 true (Cultural.BeliefSpace.init 1) []
     (0, 0) (by decide)⟩⟩

end KnightsTour

namespace KnightsTour

namespace Cultural

/-- The repair tie-break score reads the belief space only through
get_position_difficulty. -/
theorem cultScore_congr {bs1 bs2 : BeliefSpace}
    (h : ∀ p, BeliefSpace.get_position_difficulty bs1 p =
      BeliefSpace.get_position_difficulty bs2 p) (n : Nat) (st : DecSt) :
    cultScore n bs1 st = cultScore n bs2 st := by
  funext cand
  rw [cultScore, cultScore, h cand]

/-- The repair choice reads the belief space only through
get_position_difficulty. -/
theorem repairChoice_congr {bs1 bs2 : BeliefSpace}
    (h : ∀ p, BeliefSpace.get_position_difficulty bs1 p =
      BeliefSpace.get_position_difficulty bs2 p) (n : Nat) (uw : Bool) (st : DecSt) :
    repairChoice n uw bs1 st = repairChoice n uw bs2 st := by
  rw [repairChoice, repairChoice, cultScore_congr h n st]

/-- The decode loop reads the belief space only through
get_position_difficulty: two belief spaces with the same difficulty view
decode every chromosome identically. -/
theorem decodeGo_congr {bs1 bs2 : BeliefSpace}
    (h : ∀ p, BeliefSpace.get_position_difficulty bs1 p =
      BeliefSpace.get_position_difficulty bs2 p) (n : Nat) (uw : Bool) :
    ∀ (chrom : List Int) (st : DecSt),
      decodeGo n uw bs1 chrom st = decodeGo n uw bs2 chrom st := by
  intro chrom
  induction chrom with
  | nil => intro st; rfl
  | cons g rest ih =>
    intro st
    simp only [decodeGo]
    rw [repairChoice_congr h n uw st]
    simp only [h]
    split_ifs <;>
      first
        | rfl
        | exact ih _
        | (cases hrc : repairChoice n uw bs2 st with
            | none => rfl
            | some b => exact ih _)

/-- decode congruence in the belief space difficulty view. -/
theorem decode_congr {bs1 bs2 : BeliefSpace}
    (h : ∀ p, BeliefSpace.get_position_difficulty bs1 p =
      BeliefSpace.get_position_difficulty bs2 p) (n : Nat) (uw : Bool)
    (chrom : List Int) (start : Pos) :
    decode n uw bs1 chrom start = decode n uw bs2 chrom start := by
  rw [decode, decode, decodeGo_congr h n uw chrom]

end Cultural

/-- C8: fitness is a pure function of its inputs in this embedding (the
Python method performs only reads; no belief-space field is assigned in
fitness or decode, so the translation returns no updated belief space), and
its value depends on the belief space only through the
get_position_difficulty view: two belief spaces with identical contents --
indeed, merely with identical difficulty views -- give identical fitness
values for every chromosome and start position. -/
theorem C8_fitness_deterministic_reads_only (n : Nat) (uw : Bool)
    (chrom : List Int) (start : Pos) (bs1 bs2 : Cultural.BeliefSpace)
    (h : ∀ p, Cultural.BeliefSpace.get_position_difficulty bs1 p =
      Cultural.BeliefSpace.get_position_difficulty bs2 p) :
    Cultural.fitness n uw bs1 chrom start = Cultural.fitness n uw bs2 chrom start := by
  rw [Cultural.fitness, Cultural.fitness, Cultural.decode_congr h n uw chrom start]

/-- Witness for C8: two structurally equal belief spaces on a 5x5 run. -/
theorem C8_fitness_deterministic_reads_only_witness :
    (∀ p, Cultural.BeliefSpace.get_position_difficulty (Cultural.BeliefSpace.init 5) p =
      Cultural.BeliefSpace.get_position_difficulty (Cultural.BeliefSpace.init 5) p) ∧
    Cultural.fitness 5 true (Cultural.BeliefSpace.init 5) [5, 7, 3] (0, 0) =
      Cultural.fitness 5 true (Cultural.BeliefSpace.init 5) [5, 7, 3] (0, 0) :=
  ⟨fun _ => rfl,
   C8_fitness_deterministic_reads_only 5 true [5, 7, 3] (0, 0)
     (Cultural.BeliefSpace.init 5) (Cultural.BeliefSpace.init 5) (fun _ => rfl)⟩

end KnightsTour

namespace KnightsTour

namespace Cultural

/-- The knight delta table is closed under negation. -/
theorem neg_mem_KNIGHT_MOVES {d : Pos} (hd : d ∈ KNIGHT_MOVES) :
    ((-d.1, -d.2) : Pos) ∈ KNIGHT_MOVES := by
  fin_cases hd <;> decide

/-- Correctness predicate of the mobility cache: it holds exactly the
on-board squares outside the visited set, each mapped to its direct
mobility. -/
def MMGood (mm : MobilityManager) (visited : Finset Pos) : Prop :=
  ∀ p : Pos, mm.cache p =
    if is_valid_position mm.n p.1 p.2 && decide (p ∉ visited) then
      some (MobilityManager.calcMob mm.n p visited)
    else none

/-- The freshly initialized cache is correct. -/
theorem MMGood_init (n : Nat) (visited : Finset Pos) :
    MMGood (MobilityManager.init n visited) visited := fun _ => rfl

/-- Marking a square visited changes the mobility only of its knight
neighbors. -/
theorem calcMob_insert_non_neighbor (n : Nat) (p mv : Pos) (visited : Finset Pos)
    (hnb : ∀ d ∈ KNIGHT_MOVES, ((p.1 + d.1, p.2 + d.2) : Pos) ≠ mv) :
    MobilityManager.calcMob n p (insert mv visited) =
      MobilityManager.calcMob n p visited := by
  rw [MobilityManager.calcMob, MobilityManager.calcMob]
  congr 1
  apply List.filter_congr
  intro q hq
  obtain ⟨d, hd, rfl⟩ := List.mem_map.mp hq
  have hne := hnb d hd
  have hiff : (((p.1 + d.1, p.2 + d.2) : Pos) ∉ insert mv visited) ↔
      (((p.1 + d.1, p.2 + d.2) : Pos) ∉ visited) := by
    rw [Finset.mem_insert]
    constructor
    · intro hni hin
      exact hni (Or.inr hin)
    · intro hni hin
      rcases hin with he | hin
      · exact hne he
      · exact hni hin
  rw [decide_eq_decide.mpr hiff]

/-- Updating does not change the stored board size. -/
theorem update_after_move_n (m : MobilityManager) (mv : Pos) (visited : Finset Pos) :
    (MobilityManager.update_after_move m mv visited).n = m.n := rfl

/-- Single-step preservation: updating the cache after a fresh move, with
the visited set already containing the move, keeps the cache correct. -/
theorem MMGood_update (mm : MobilityManager) (visited : Finset Pos) (mv : Pos)
    (hg : MMGood mm visited) (hmv : mv ∉ visited) :
    MMGood (MobilityManager.update_after_move mm mv (insert mv visited))
      (insert mv visited) := by
  intro p
  simp only [MobilityManager.update_after_move]
  by_cases hp : p = mv
  · subst hp
    rw [if_pos rfl]
    simp
  · rw [if_neg hp]
    have hins : (p ∉ insert mv visited) ↔ (p ∉ visited) := by
      rw [Finset.mem_insert]
      constructor
      · intro hni hin
        exact hni (Or.inr hin)
      · intro hni hin
        rcases hin with he | hin
        · exact hp he
        · exact hni hin
    by_cases hcond : ((KNIGHT_MOVES.any (fun d => p = (mv.1 + d.1, mv.2 + d.2))) &&
        is_valid_position mm.n p.1 p.2 && (mm.cache p).isSome) = true
    · rw [if_pos hcond]
      rw [Bool.and_eq_true, Bool.and_eq_true] at hcond
      have hsome := hcond.2
      have hvalid := hcond.1.2
      rw [hg p] at hsome
      by_cases hold : (is_valid_position mm.n p.1 p.2 && decide (p ∉ visited)) = true
      · rw [Bool.and_eq_true] at hold
        have hout : p ∉ visited := of_decide_eq_true hold.2
        rw [if_pos (by rw [Bool.and_eq_true]
                       exact ⟨hvalid, decide_eq_true (hins.mpr hout)⟩)]
      · rw [if_neg hold] at hsome
        exact absurd hsome (by simp)
    · rw [if_neg hcond]
      rw [hg p]
      by_cases hold : (is_valid_position mm.n p.1 p.2 && decide (p ∉ visited)) = true
      · rw [if_pos hold]
        rw [Bool.and_eq_true] at hold
        have hout : p ∉ visited := of_decide_eq_true hold.2
        rw [if_pos (by rw [Bool.and_eq_true]
                       exact ⟨hold.1, decide_eq_true (hins.mpr hout)⟩)]
        have hany : (KNIGHT_MOVES.any (fun d => p = (mv.1 + d.1, mv.2 + d.2))) = false := by
          cases hany : (KNIGHT_MOVES.any (fun d => p = (mv.1 + d.1, mv.2 + d.2))) with
          | false => rfl
          | true =>
            exfalso
            apply hcond
            rw [Bool.and_eq_true, Bool.and_eq_true]
            refine ⟨⟨hany, hold.1⟩, ?_⟩
            rw [hg p, if_pos (by rw [Bool.and_eq_true]; exact ⟨hold.1, hold.2⟩)]
            simp
        have hnb : ∀ d ∈ KNIGHT_MOVES, ((p.1 + d.1, p.2 + d.2) : Pos) ≠ mv := by
          intro d hd heq
          have hneg := neg_mem_KNIGHT_MOVES hd
          have hforall := List.any_eq_false.mp hany
          have hpe : p = (mv.1 + -d.1, mv.2 + -d.2) := by
            have h1 : mv.1 = p.1 + d.1 := by rw [← heq]
            have h2 : mv.2 = p.2 + d.2 := by rw [← heq]
            rw [h1, h2]
            have e1 : p.1 + d.1 + -d.1 = p.1 := by ring
            have e2 : p.2 + d.2 + -d.2 = p.2 := by ring
            rw [e1, e2]
          exact hforall (-d.1, -d.2) hneg (decide_eq_true hpe)
        rw [calcMob_insert_non_neighbor mm.n p mv visited hnb]
      · rw [if_neg hold]
        rw [if_neg ?_]
        rw [Bool.and_eq_true] at hold ⊢
        intro hnew
        apply hold
        exact ⟨hnew.1, decide_eq_true (hins.mp (of_decide_eq_true hnew.2))⟩

end Cultural

end KnightsTour

namespace KnightsTour

namespace Cultural

/-- Sequence of moves applied to the mobility manager, each via
update_after_move with the visited set already containing the move (the
documented contract of update_after_move). -/
def runMoves : MobilityManager → Finset Pos → List Pos → MobilityManager × Finset Pos
  | mm, visited, [] => (mm, visited)
  | mm, visited, m :: rest =>
    runMoves (MobilityManager.update_after_move mm m (insert m visited))
      (insert m visited) rest

/-- Running moves does not change the stored board size. -/
theorem runMoves_n : ∀ (ms : List Pos) (mm : MobilityManager) (visited : Finset Pos),
    (runMoves mm visited ms).1.n = mm.n := by
  intro ms
  induction ms with
  | nil => intro mm visited; rfl
  | cons m rest ih =>
    intro mm visited
    rw [runMoves]
    rw [ih]
    rfl

/-- Cache correctness is preserved along any sequence of fresh, pairwise
distinct moves. -/
theorem runMoves_good : ∀ (ms : List Pos) (mm : MobilityManager) (visited : Finset Pos),
    MMGood mm visited → ms.Nodup → (∀ m ∈ ms, m ∉ visited) →
    MMGood (runMoves mm visited ms).1 (runMoves mm visited ms).2 := by
  intro ms
  induction ms with
  | nil => intro mm visited hg _ _; exact hg
  | cons m rest ih =>
    intro mm visited hg hnd hfresh
    rw [runMoves]
    have hnd' := List.nodup_cons.mp hnd
    refine ih _ _ (MMGood_update mm visited m hg (hfresh m (List.mem_cons_self m rest)))
      hnd'.2 ?_
    intro m' hm'
    rw [Finset.mem_insert]
    rintro (he | hin)
    · exact hnd'.1 (he ▸ hm')
    · exact hfresh m' (List.mem_cons_of_mem m hm') hin

end Cultural

/-- C9: the cached mobility computation refines the direct one.  Starting
from a manager initialized with any visited set and applying any sequence
of fresh, pairwise distinct moves (each update receiving the visited set
already containing the move), get_mobility on every on-board unvisited cell
equals the direct degree computation _get_mobility over the current visited
set. -/
theorem C9_cached_mobility_refines_direct (n : Nat) (V0 : Finset Pos) (ms : List Pos)
    (hnd : ms.Nodup) (hfresh : ∀ m ∈ ms, m ∉ V0) (x y : Int)
    (hvalid : Cultural.is_valid_position n x y = true)
    (hunv : ((x, y) : Pos) ∉ (Cultural.runMoves (Cultural.MobilityManager.init n V0) V0 ms).2) :
    Cultural.MobilityManager.get_mobility
        (Cultural.runMoves (Cultural.MobilityManager.init n V0) V0 ms).1 x y =
      Cultural.solverGetMobility n (x, y)
        (Cultural.runMoves (Cultural.MobilityManager.init n V0) V0 ms).2 := by
  have hg := Cultural.runMoves_good ms (Cultural.MobilityManager.init n V0) V0
    (Cultural.MMGood_init n V0) hnd hfresh
  have hc := hg ((x, y) : Pos)
  have hn : (Cultural.runMoves (Cultural.MobilityManager.init n V0) V0 ms).1.n = n :=
    Cultural.runMoves_n ms _ V0
  rw [hn] at hc
  rw [Cultural.MobilityManager.get_mobility, hc,
    if_pos (by rw [Bool.and_eq_true]; exact ⟨hvalid, decide_eq_true hunv⟩)]
  rfl

/-- Witness for C9: 4x4 board, two moves applied from an empty visited set,
queried at the unvisited cell (1, 3). -/
theorem C9_cached_mobility_refines_direct_witness :
    (([(0, 0), (2, 1)] : List Pos).Nodup ∧
     (∀ m ∈ ([(0, 0), (2, 1)] : List Pos), m ∉ (∅ : Finset Pos)) ∧
     Cultural.is_valid_position 4 1 3 = true ∧
     ((1, 3) : Pos) ∉ (Cultural.runMoves (Cultural.MobilityManager.init 4 ∅) ∅
       [(0, 0), (2, 1)]).2) ∧
    Cultural.MobilityManager.get_mobility
        (Cultural.runMoves (Cultural.MobilityManager.init 4 ∅) ∅ [(0, 0), (2, 1)]).1 1 3 =
      Cultural.solverGetMobility 4 (1, 3)
        (Cultural.runMoves (Cultural.MobilityManager.init 4 ∅) ∅ [(0, 0), (2, 1)]).2 :=
  ⟨⟨by decide, by decide, by decide, by decide⟩,
   C9_cached_mobility_refines_direct 4 ∅ [(0, 0), (2, 1)] (by decide) (by decide) 1 3
     (by decide) (by decide)⟩

end KnightsTour

namespace KnightsTour

namespace Enhanced

/-- Move table KNIGHT_MOVES of RandomKnightWalk (level0_random.py),
inherited by PureBacktracking and EnhancedBacktracking. -/
def KNIGHT_MOVES : List Pos :=
  [(-2, -1), (-2, 1), (-1, -2), (-1, 2), (1, -2), (1, 2), (2, -1), (2, 1)]

/-- is_valid_position of RandomKnightWalk. -/
def is_valid_position (n : Nat) (x y : Int) : Bool :=
  decide (0 ≤ x ∧ x < (n : Int) ∧ 0 ≤ y ∧ y < (n : Int))

/-- is_unvisited of RandomKnightWalk: the board cell holds -1. -/
def is_unvisited (b : Pos → Int) (x y : Int) : Bool :=
  b (x, y) == -1

/-- get_valid_moves of RandomKnightWalk: on-board unvisited destinations in
KNIGHT_MOVES order. -/
def get_valid_moves (n : Nat) (b : Pos → Int) (x y : Int) : List Pos :=
  (KNIGHT_MOVES.map (fun d => (x + d.1, y + d.2))).filter
    (fun q => is_valid_position n q.1 q.2 && is_unvisited b q.1 q.2)

/-- _get_degree of EnhancedBacktracking (level3_enhanced.py): count of
on-board unvisited knight neighbors. -/
def _get_degree (n : Nat) (b : Pos → Int) (x y : Int) : Nat :=
  (KNIGHT_MOVES.filter (fun d =>
    is_valid_position n (x + d.1) (y + d.2) && is_unvisited b (x + d.1) (y + d.2))).length

/-- _has_isolated_neighbor of EnhancedBacktracking: temporarily mark (x, y)
with 999, then report whether some on-board unvisited neighbor has degree 0;
the board is restored before returning, so the embedding is a pure
predicate on the original board. -/
def _has_isolated_neighbor (n : Nat) (b : Pos → Int) (x y : Int) : Bool :=
  let bTmp := Backtracking.setCell b x y 999
  KNIGHT_MOVES.any (fun d =>
    is_valid_position n (x + d.1) (y + d.2) && is_unvisited bTmp (x + d.1) (y + d.2) &&
    (_get_degree n bTmp (x + d.1) (y + d.2) == 0))

/-- Candidate list that _backtrack of EnhancedBacktracking (lines 41-68)
iterates over: the valid moves decorated with their degree, stably sorted
ascending by degree, and projected; no isolation filter is applied anywhere
in _backtrack. -/
def backtrackCandidates (n : Nat) (b : Pos → Int) (x y : Int) : List Pos :=
  (((get_valid_moves n b x y).map
    (fun q => (q, _get_degree n b q.1 q.2))).insertionSort Backtracking.degLE).map
    Prod.fst

/-- Concrete 5x5 board for the C4 failing input: squares (1,2) and (4,2)
visited, knight standing on (4,2), everything else unvisited. -/
def bC4 : Pos → Int :=
  fun p => if p = ((1, 2) : Pos) then 0 else if p = ((4, 2) : Pos) then 1 else -1

end Enhanced

/-- C4 (code bug): EnhancedBacktracking defines _has_isolated_neighbor but
_backtrack never invokes it, although the file's closing summary lists
avoiding isolated neighbors as the level-3 feature and the spec describes
the filter as applied before the degree sort.  At the failing input (5x5
board, (1,2) and (4,2) visited, knight on (4,2)) the candidate (2,1) would
isolate the unvisited square (0,0) -- _has_isolated_neighbor reports true --
yet (2,1) is in the candidate list _backtrack recurses through. -/
theorem C4_isolation_filter_never_applied :
    Enhanced._has_isolated_neighbor 5 Enhanced.bC4 2 1 = true ∧
    ((2, 1) : Pos) ∈ Enhanced.backtrackCandidates 5 Enhanced.bC4 4 2 := by
  decide

end KnightsTour

namespace KnightsTour

namespace Cultural

/-- Stable descending index sort used throughout the GA code:
sorted(range(len(scores)), key=scores, reverse=True); insertionSort with
this orientation computes exactly the Python stable sort. -/
def sortIndicesDesc (scores : List ℚ) : List Nat :=
  (List.range scores.length).insertionSort
    (fun i j => scores.getD j 0 ≤ scores.getD i 0)

/-- Per-chromosome move-statistics loop of BeliefSpace.update: every
in-range gene counts one usage, and one success exactly when the
individual's fitness exceeds 300. -/
def updChromMoves (fitness : ℚ) (mu ms : Int → Nat) : List Int → (Int → Nat) × (Int → Nat)
  | [] => (mu, ms)
  | m :: rest =>
    if 0 ≤ m ∧ m ≤ 7 then
      updChromMoves fitness
        (fun g => if g = m then mu g + 1 else mu g)
        (if 300 < fitness then (fun g => if g = m then ms g + 1 else ms g) else ms)
        rest
    else updChromMoves fitness mu ms rest

/-- Per-path map-statistics loop of BeliefSpace.update: every visited
position counts one visit, and one success exactly when the path covers at
least 80 percent of the board. -/
def updMap (n : Nat) (path : List Pos) (mp : Pos → Option (Nat × Nat)) :
    Pos → Option (Nat × Nat) :=
  path.foldl (fun mp pos =>
    let cur := (mp pos).getD (0, 0)
    let succ := if (n * n : ℚ) * (8 / 10) ≤ (path.length : ℚ) then cur.2 + 1 else cur.2
    fun q => if q = pos then some (cur.1 + 1, succ) else mp q) mp

/-- update of BeliefSpace (level3_cultural_ga.py): bump the generation
counter, archive the top-3 individuals, and accumulate move and position
statistics from the top min(5, len) individuals by fitness. -/
def BeliefSpace.update (bs : BeliefSpace) (population : List (List Int))
    (fitness_scores : List ℚ) (decoded_paths : List (List Pos)) : BeliefSpace :=
  let sorted_indices := sortIndicesDesc fitness_scores
  let best := (sorted_indices.take (min 3 sorted_indices.length)).map (fun idx =>
    (population.getD idx [], fitness_scores.getD idx 0, decoded_paths.getD idx []))
  let res := (sorted_indices.take (min 5 sorted_indices.length)).foldl
    (fun (acc : (Int → Nat) × (Int → Nat) × (Pos → Option (Nat × Nat))) idx =>
      ((updChromMoves (fitness_scores.getD idx 0) acc.1 acc.2.1
          (population.getD idx [])).1,
       (updChromMoves (fitness_scores.getD idx 0) acc.1 acc.2.1
          (population.getD idx [])).2,
       updMap bs.n (decoded_paths.getD idx []) acc.2.2))
    (bs.move_usage, bs.move_success, bs.mobility_map)
  { bs with
    generation_count := bs.generation_count + 1,
    best_individuals := best,
    move_usage := res.1, move_success := res.2.1, mobility_map := res.2.2 }

/-- AdvancedBeliefSpace of cultural.py: the base belief space plus
transition quality, dangerous transitions, good patterns and stagnation
tracking. -/
structure AdvancedBeliefSpace where
  base : BeliefSpace
  transition_quality : Pos × Pos → Option (Nat × Nat)
  dangerous_transitions : Finset (Pos × Pos)
  good_patterns : List ((Pos × Pos × Pos) × ℚ)
  stagnation_counter : Nat
  last_best_fitness : ℚ

namespace AdvancedBeliefSpace

/-- __init__ of AdvancedBeliefSpace. -/
def init (n : Nat) : AdvancedBeliefSpace :=
  { base := BeliefSpace.init n, transition_quality := fun _ => none,
    dangerous_transitions := ∅, good_patterns := [],
    stagnation_counter := 0, last_best_fitness := 0 }

end AdvancedBeliefSpace

/-- Consecutive position pairs of a path. -/
def consecutivePairs : List Pos → List (Pos × Pos)
  | a :: b :: rest => (a, b) :: consecutivePairs (b :: rest)
  | _ => []

/-- Consecutive position triples of a path. -/
def triples : List Pos → List (Pos × Pos × Pos)
  | a :: b :: c :: rest => (a, b, c) :: triples (b :: c :: rest)
  | _ => []

/-- Transition-quality loop of AdvancedBeliefSpace.update: each consecutive
pair of the path gains one success when good (fitness above 7 times the
board area), else one failure. -/
def updTQ (good : Bool) (tq : Pos × Pos → Option (Nat × Nat)) (path : List Pos) :
    Pos × Pos → Option (Nat × Nat) :=
  (consecutivePairs path).foldl (fun tq tr =>
    let cur := (tq tr).getD (0, 0)
    let cur' := if good then (cur.1 + 1, cur.2) else (cur.1, cur.2 + 1)
    fun t => if t = tr then some cur' else tq t) tq

/-- Pattern-collection loop of AdvancedBeliefSpace.update: append each
3-move pattern of the path not already recorded. -/
def addPatterns (fitness : ℚ) (gp : List ((Pos × Pos × Pos) × ℚ)) (path : List Pos) :
    List ((Pos × Pos × Pos) × ℚ) :=
  (triples path).foldl (fun gp pat =>
    if pat ∈ gp.map Prod.fst then gp else gp ++ [(pat, fitness)]) gp

/-- update of AdvancedBeliefSpace (cultural.py): delegate to the base
update, track stagnation against the generation's best fitness, learn
transition quality and 3-move patterns from the top 20 percent (len // 5,
at least 1), cap the pattern archive at the best 15, and mark the
transitions of low-coverage paths from the bottom 10 percent as
dangerous. -/
def advUpdate (ab : AdvancedBeliefSpace) (population : List (List Int))
    (fitness_scores : List ℚ) (decoded_paths : List (List Pos)) :
    AdvancedBeliefSpace :=
  let base' := BeliefSpace.update ab.base population fitness_scores decoded_paths
  let current_best : ℚ := match fitness_scores with
    | [] => 0
    | s :: rest => rest.foldl max s
  let stag := if |current_best - ab.last_best_fitness| < 1 then
      ab.stagnation_counter + 1
    else ab.stagnation_counter - 1
  let sorted_indices := sortIndicesDesc fitness_scores
  let n := ab.base.n
  let top_count := max 1 (sorted_indices.length / 5)
  let topres := (sorted_indices.take top_count).foldl
    (fun (acc : (Pos × Pos → Option (Nat × Nat)) × List ((Pos × Pos × Pos) × ℚ)) idx =>
      let path := decoded_paths.getD idx []
      let fit := fitness_scores.getD idx 0
      let tq := updTQ (decide ((n * n : ℚ) * 7 < fit)) acc.1 path
      let gp := if (n * n : ℚ) * (7 / 10) ≤ (path.length : ℚ) then
          addPatterns fit acc.2 path
        else acc.2
      (tq, gp))
    (ab.transition_quality, ab.good_patterns)
  let gp' := (topres.2.insertionSort (fun a b => b.2 ≤ a.2)).take 15
  let bottom_count := max 1 (sorted_indices.length / 10)
  let dg' := (sorted_indices.reverse.take bottom_count).foldl
    (fun (dg : Finset (Pos × Pos)) idx =>
      let path := decoded_paths.getD idx []
      if (path.length : ℚ) < (n * n : ℚ) * (1 / 2) then
        (consecutivePairs path).foldl (fun dg tr => insert tr dg) dg
      else dg)
    ab.dangerous_transitions
  { base := base', transition_quality := topres.1, dangerous_transitions := dg',
    good_patterns := gp', stagnation_counter := stag,
    last_best_fitness := current_best }

/-- Count of in-range occurrences of gene g in a chromosome. -/
def countGene (chrom : List Int) (g : Int) : Nat :=
  (chrom.filter (fun m => decide (0 ≤ m ∧ m ≤ 7 ∧ m = g))).length

/-- Specification-side total usage gain of one update call for gene g: sum
of in-range occurrences over the top min(5, len) individuals by fitness. -/
def usageGain (population : List (List Int)) (scores : List ℚ) (g : Int) : Nat :=
  (((sortIndicesDesc scores).take (min 5 (sortIndicesDesc scores).length)).map
    (fun idx => countGene (population.getD idx []) g)).sum

/-- Specification-side total success gain of one update call for gene g:
as usageGain, but an individual contributes only when its fitness exceeds
the constant 300. -/
def successGain (population : List (List Int)) (scores : List ℚ) (g : Int) : Nat :=
  (((sortIndicesDesc scores).take (min 5 (sortIndicesDesc scores).length)).map
    (fun idx => if 300 < scores.getD idx 0 then countGene (population.getD idx []) g
      else 0)).sum

end Cultural

end KnightsTour

namespace KnightsTour

namespace Cultural

/-- Head unfolding of the gene count. -/
theorem countGene_cons (m : Int) (rest : List Int) (g : Int) :
    countGene (m :: rest) g =
      (if 0 ≤ m ∧ m ≤ 7 ∧ m = g then 1 else 0) + countGene rest g := by
  rw [countGene, countGene, List.filter_cons]
  by_cases h : 0 ≤ m ∧ m ≤ 7 ∧ m = g
  · have hd : decide (0 ≤ m ∧ m ≤ 7 ∧ m = g) = true := decide_eq_true h
    rw [if_pos h, if_pos hd, List.length_cons]
    omega
  · have hd : ¬ (decide (0 ≤ m ∧ m ≤ 7 ∧ m = g) = true) := by
      simp only [decide_eq_true_eq]
      exact h
    rw [if_neg h, if_neg hd]
    omega

/-- The per-chromosome move loop adds exactly the in-range occurrences of
each gene to the usage counter, and to the success counter exactly when the
fitness exceeds 300. -/
theorem updChromMoves_spec :
    ∀ (chrom : List Int) (fit : ℚ) (mu ms : Int → Nat) (g : Int),
      (updChromMoves fit mu ms chrom).1 g = mu g + countGene chrom g ∧
      (updChromMoves fit mu ms chrom).2 g =
        ms g + (if 300 < fit then countGene chrom g else 0) := by
  intro chrom
  induction chrom with
  | nil =>
    intro fit mu ms g
    constructor
    · show mu g = mu g + countGene [] g
      rw [countGene]
      rfl
    · show ms g = ms g + (if 300 < fit then countGene [] g else 0)
      rw [countGene]
      by_cases hf : (300 : ℚ) < fit <;> simp [hf]
  | cons m rest ih =>
    intro fit mu ms g
    rw [updChromMoves]
    by_cases hm : 0 ≤ m ∧ m ≤ 7
    · rw [if_pos hm]
      have h := ih fit (fun g => if g = m then mu g + 1 else mu g)
        (if 300 < fit then (fun g => if g = m then ms g + 1 else ms g) else ms) g
      rw [countGene_cons]
      constructor
      · rw [h.1]
        by_cases hg : g = m
        · rw [if_pos hg, if_pos ⟨hm.1, hm.2, hg.symm⟩]
          omega
        · rw [if_neg hg, if_neg (fun hc => hg hc.2.2.symm)]
          omega
      · rw [h.2]
        by_cases hf : (300 : ℚ) < fit
        · rw [if_pos hf, if_pos hf, if_pos hf]
          by_cases hg : g = m
          · rw [if_pos hg, if_pos ⟨hm.1, hm.2, hg.symm⟩]
            omega
          · rw [if_neg hg, if_neg (fun hc => hg hc.2.2.symm)]
            omega
        · rw [if_neg hf, if_neg hf, if_neg hf]
    · rw [if_neg hm]
      have h := ih fit mu ms g
      rw [countGene_cons, if_neg (fun hc => hm ⟨hc.1, hc.2.1⟩)]
      constructor
      · rw [h.1]
        omega
      · rw [h.2]
        by_cases hf : (300 : ℚ) < fit
        · rw [if_pos hf, if_pos hf]
          omega
        · rw [if_neg hf, if_neg hf]

/-- The knowledge-extraction fold of BeliefSpace.update adds, per gene, the
sum of the per-individual contributions over the processed indices. -/
theorem update_fold_spec (pop : List (List Int)) (scores : List ℚ)
    (paths : List (List Pos)) (n : Nat) :
    ∀ (idxs : List Nat)
      (acc : (Int → Nat) × (Int → Nat) × (Pos → Option (Nat × Nat))) (g : Int),
      ((idxs.foldl
        (fun (acc : (Int → Nat) × (Int → Nat) × (Pos → Option (Nat × Nat))) idx =>
          ((updChromMoves (scores.getD idx 0) acc.1 acc.2.1 (pop.getD idx [])).1,
           (updChromMoves (scores.getD idx 0) acc.1 acc.2.1 (pop.getD idx [])).2,
           updMap n (paths.getD idx []) acc.2.2)) acc).1 g =
        acc.1 g + (idxs.map (fun idx => countGene (pop.getD idx []) g)).sum) ∧
      ((idxs.foldl
        (fun (acc : (Int → Nat) × (Int → Nat) × (Pos → Option (Nat × Nat))) idx =>
          ((updChromMoves (scores.getD idx 0) acc.1 acc.2.1 (pop.getD idx [])).1,
           (updChromMoves (scores.getD idx 0) acc.1 acc.2.1 (pop.getD idx [])).2,
           updMap n (paths.getD idx []) acc.2.2)) acc).2.1 g =
        acc.2.1 g + (idxs.map (fun idx =>
          if 300 < scores.getD idx 0 then countGene (pop.getD idx []) g else 0)).sum) := by
  intro idxs
  induction idxs with
  | nil =>
    intro acc g
    constructor <;> simp
  | cons idx rest ih =>
    intro acc g
    rw [List.foldl_cons]
    have hstep := updChromMoves_spec (pop.getD idx []) (scores.getD idx 0) acc.1 acc.2.1 g
    have hrest := ih ((updChromMoves (scores.getD idx 0) acc.1 acc.2.1 (pop.getD idx [])).1,
      (updChromMoves (scores.getD idx 0) acc.1 acc.2.1 (pop.getD idx [])).2,
      updMap n (paths.getD idx []) acc.2.2) g
    constructor
    · rw [List.map_cons, List.sum_cons]
      rw [hrest.1]
      rw [hstep.1]
      omega
    · rw [List.map_cons, List.sum_cons]
      rw [hrest.2]
      show (updChromMoves (scores.getD idx 0) acc.1 acc.2.1 (pop.getD idx [])).2 g + _ = _
      rw [hstep.2]
      omega

/-- Concrete update call for the C7 counterexample: ten single-gene
individuals on a 2x2 board, fitness strictly decreasing, each decoding to
the single-square path. -/
def popC7 : List (List Int) := [[0], [1], [2], [3], [4], [5], [6], [7], [0], [1]]

/-- Fitness scores of the C7 counterexample population. -/
def scoresC7 : List ℚ := [1000, 900, 800, 200, 100, 90, 80, 70, 60, 50]

/-- Decoded paths of the C7 counterexample population. -/
def pathsC7 : List (List Pos) := List.replicate 10 [(0, 0)]

end Cultural

/-- C7 (counterexample): in an AdvancedBeliefSpace.update call on a 2x2
board with ten individuals, the per-move usage counter receives a
contribution from the individual ranked 3rd (gene 2), outside the top 20
percent (10 // 5 = 2 individuals), and the individual ranked 4th with
fitness 200 -- far above every small multiple of the board area n*n = 4,
in particular above 7*n*n = 28 (written as the literal 28) -- is not
counted as a success because the
code's success threshold for the per-move counters is the constant 300. -/
theorem C7_counterexample_move_counters :
    (Cultural.advUpdate (Cultural.AdvancedBeliefSpace.init 2) Cultural.popC7
      Cultural.scoresC7 Cultural.pathsC7).base.move_usage 2 = 1 ∧
    (Cultural.advUpdate (Cultural.AdvancedBeliefSpace.init 2) Cultural.popC7
      Cultural.scoresC7 Cultural.pathsC7).base.move_usage 5 = 0 ∧
    (Cultural.advUpdate (Cultural.AdvancedBeliefSpace.init 2) Cultural.popC7
      Cultural.scoresC7 Cultural.pathsC7).base.move_usage 3 = 1 ∧
    (Cultural.advUpdate (Cultural.AdvancedBeliefSpace.init 2) Cultural.popC7
      Cultural.scoresC7 Cultural.pathsC7).base.move_success 3 = 0 ∧
    ((28 : ℚ) < Cultural.scoresC7.getD 3 0) := by
  decide

/-- C7 (amended): the per-move usage and success counters of every
belief-space update (the advanced update delegates to the base one) are
accumulated from the top min(5, population size) individuals by fitness,
a use counting as a success exactly when that individual's fitness exceeds
the constant 300; the top ~20 percent with the 7*n*n threshold govern the
transition-quality counters instead. -/
theorem C7_amended_move_counters_top5_const300
    (ab : Cultural.AdvancedBeliefSpace) (pop : List (List Int))
    (scores : List ℚ) (paths : List (List Pos)) (g : Int) :
    (Cultural.advUpdate ab pop scores paths).base.move_usage g =
      ab.base.move_usage g + Cultural.usageGain pop scores g ∧
    (Cultural.advUpdate ab pop scores paths).base.move_success g =
      ab.base.move_success g + Cultural.successGain pop scores g := by
  have h := Cultural.update_fold_spec pop scores paths ab.base.n
    ((Cultural.sortIndicesDesc scores).take
      (min 5 (Cultural.sortIndicesDesc scores).length))
    (ab.base.move_usage, ab.base.move_success, ab.base.mobility_map) g
  exact ⟨h.1, h.2⟩

end KnightsTour
